import Mathlib

/-!
Verification development for the `epoch` version-control engine
(`epochvc.py`).  The repository state that the Python code keeps on disk
(staging index `stage.json`, staging blob directory `.epoch/snapshot`,
`head`/`tail` pointer files, the history ledger, the commit table
`commits/info.json` and the per-commit snapshot documents and blob
directories) is embedded as an explicit record of insertion-ordered
string-keyed maps, and every core operation (`stage`, `commit`, `revert`,
`_is_ignore`, `_get_hash_from_last_commit`, ...) is translated into a pure
Lean function over that record.  `sha256` over path+content is modelled by
an abstract fingerprint function carried in the environment; Python
exceptions and `exit(1)` become values of an explicit error type.
-/

namespace Epoch

/-- Insertion-ordered string-keyed map: the embedding of a Python `dict`
(and of a directory of files keyed by filename).  Keys are unique in every
dict the program builds; operations below mirror Python semantics
(`d[k] = v` updates in place, else appends; `del d[k]` removes). -/
abbrev Dict (β : Type) : Type := List (String × β)

namespace Dict

/-- Python `d.get(k)` / `d[k]` lookup (first matching key). -/
def get? {β : Type} : Dict β → String → Option β
  | [], _ => none
  | kv :: rest, k => if kv.1 = k then some kv.2 else get? rest k

/-- Python `k in d`. -/
def contains {β : Type} (d : Dict β) (k : String) : Bool := (get? d k).isSome

/-- Python `d[k] = v`: update in place when the key exists, else append. -/
def insert {β : Type} : Dict β → String → β → Dict β
  | [], k, v => [(k, v)]
  | kv :: rest, k, v => if kv.1 = k then (k, v) :: rest else kv :: insert rest k v

/-- Python `del d[k]` (total: removes every pair with that key). -/
def erase {β : Type} : Dict β → String → Dict β
  | [], _ => []
  | kv :: rest, k => if kv.1 = k then erase rest k else kv :: erase rest k

/-- Python `d.update(other)`: insert every pair of `other` in order. -/
def update {β : Type} (d other : Dict β) : Dict β :=
  other.foldl (fun acc kv => insert acc kv.1 kv.2) d

/-- Python `list(d.keys())`. -/
def keys {β : Type} (d : Dict β) : List String := d.map Prod.fst

theorem get?_insert_self {β : Type} (d : Dict β) (k : String) (v : β) :
    get? (insert d k v) k = some v := by
  induction d with
  | nil => simp [insert, get?]
  | cons kv rest ih =>
    by_cases h : kv.1 = k
    · simp [insert, h, get?]
    · simp [insert, h, get?, ih]

theorem get?_insert_ne {β : Type} (d : Dict β) {k k2 : String} (v : β)
    (h : k ≠ k2) : get? (insert d k v) k2 = get? d k2 := by
  induction d with
  | nil => simp [insert, get?, h]
  | cons kv rest ih =>
    by_cases hk : kv.1 = k
    · simp [insert, hk, get?, h]
    · simp [insert, hk, get?, ih]

theorem get?_erase_self {β : Type} (d : Dict β) (k : String) :
    get? (erase d k) k = none := by
  induction d with
  | nil => simp [erase, get?]
  | cons kv rest ih =>
    by_cases h : kv.1 = k
    · simp [erase, h, ih]
    · simp [erase, h, get?, ih]

theorem get?_erase_ne {β : Type} (d : Dict β) {k k2 : String} (h : k ≠ k2) :
    get? (erase d k) k2 = get? d k2 := by
  induction d with
  | nil => simp [erase]
  | cons kv rest ih =>
    by_cases hk : kv.1 = k
    · have hne : kv.1 ≠ k2 := by rw [hk]; exact h
      simp [erase, hk, get?, hne, ih, h]
    · simp [erase, hk, get?, ih]

theorem erase_of_not_contains {β : Type} {d : Dict β} {k : String}
    (h : contains d k = false) : erase d k = d := by
  induction d with
  | nil => simp [erase]
  | cons kv rest ih =>
    by_cases hk : kv.1 = k
    · simp [contains, get?, hk] at h
    · simp [contains, get?, hk] at h
      simp [erase, hk, ih (by simp [contains, h])]

theorem insert_of_get?_eq {β : Type} {d : Dict β} {k : String} {v : β}
    (h : get? d k = some v) : insert d k v = d := by
  induction d with
  | nil => simp [get?] at h
  | cons kv rest ih =>
    by_cases hk : kv.1 = k
    · simp [get?, hk] at h
      simp only [insert, if_pos hk]
      rw [← hk, ← h]
    · simp [get?, hk] at h
      simp [insert, hk, ih h]

theorem mem_keys_of_mem {β : Type} {d : Dict β} {kv : String × β}
    (h : kv ∈ d) : kv.1 ∈ keys d := List.mem_map_of_mem Prod.fst h

theorem mem_of_get? {β : Type} {d : Dict β} {k : String} {v : β}
    (h : get? d k = some v) : (k, v) ∈ d := by
  induction d with
  | nil => simp [get?] at h
  | cons kv rest ih =>
    by_cases hk : kv.1 = k
    · simp [get?, hk] at h
      have hkv : (k, v) = kv := by rw [← hk, ← h]
      rw [hkv]
      exact List.mem_cons_self kv rest
    · simp [get?, hk] at h
      exact List.mem_cons_of_mem kv (ih h)

theorem get?_of_mem_nodup {β : Type} {d : Dict β} {k : String} {v : β}
    (hn : (keys d).Nodup) (h : (k, v) ∈ d) : get? d k = some v := by
  induction d with
  | nil => simp at h
  | cons kv rest ih =>
    have hn2 := List.nodup_cons.mp (show (kv.1 :: keys rest).Nodup from hn)
    rcases List.mem_cons.mp h with h1 | h1
    · rw [← h1]
      simp [get?]
    · have hk : kv.1 ≠ k := by
        intro he
        apply hn2.1
        rw [he]
        exact mem_keys_of_mem h1
      simp [get?, hk]
      exact ih hn2.2 h1

theorem contains_eq_true_iff {β : Type} {d : Dict β} {k : String} :
    contains d k = true ↔ ∃ v, get? d k = some v := by
  simp [contains, Option.isSome_iff_exists]

theorem contains_eq_false_iff {β : Type} {d : Dict β} {k : String} :
    contains d k = false ↔ get? d k = none := by
  unfold contains
  cases hg : get? d k <;> simp [Option.isSome]

theorem get?_isSome_of_mem {β : Type} {d : Dict β} {kv : String × β}
    (h : kv ∈ d) : (get? d kv.1).isSome := by
  induction d with
  | nil => simp at h
  | cons a rest ih =>
    rcases List.mem_cons.mp h with h1 | h1
    · rw [← h1]; simp [get?]
    · by_cases hk : a.1 = kv.1
      · simp [get?, hk]
      · simp [get?, hk]
        exact ih h1

theorem keys_insert_of_contains {β : Type} {d : Dict β} {k : String} (v : β)
    (h : contains d k = true) : keys (insert d k v) = keys d := by
  induction d with
  | nil => simp [contains, get?] at h
  | cons kv rest ih =>
    by_cases hk : kv.1 = k
    · simp [insert, hk, keys]
    · simp [contains, get?, hk] at h
      simp [insert, hk, keys] at ih ⊢
      exact ih (by simp [contains, h])

theorem keys_insert_of_not_contains {β : Type} {d : Dict β} {k : String} (v : β)
    (h : contains d k = false) : keys (insert d k v) = keys d ++ [k] := by
  induction d with
  | nil => simp [insert, keys]
  | cons kv rest ih =>
    by_cases hk : kv.1 = k
    · simp [contains, get?, hk] at h
    · simp [contains, get?, hk] at h
      simp [insert, hk, keys] at ih ⊢
      exact ih (by simp [contains, h])

theorem get?_isSome_of_mem_keys {β : Type} {d : Dict β} {k : String}
    (h : k ∈ keys d) : (get? d k).isSome := by
  rcases List.mem_map.mp h with ⟨kv, hmem, hfst⟩
  rw [← hfst]
  exact get?_isSome_of_mem hmem

theorem not_mem_keys_of_not_contains {β : Type} {d : Dict β} {k : String}
    (h : contains d k = false) : k ∉ keys d := by
  intro hmem
  have := get?_isSome_of_mem_keys hmem
  rw [contains_eq_false_iff] at h
  rw [h] at this
  exact Bool.noConfusion this

theorem nodup_keys_insert {β : Type} {d : Dict β} {k : String} (v : β)
    (h : (keys d).Nodup) : (keys (insert d k v)).Nodup := by
  cases hc : contains d k with
  | true => rw [keys_insert_of_contains v hc]; exact h
  | false =>
    rw [keys_insert_of_not_contains v hc]
    rw [List.nodup_append]
    refine ⟨h, List.nodup_singleton k, ?_⟩
    intro a ha hb
    simp at hb
    rw [hb] at ha
    exact not_mem_keys_of_not_contains hc ha

theorem keys_erase_sublist {β : Type} (d : Dict β) (k : String) :
    (keys (erase d k)).Sublist (keys d) := by
  induction d with
  | nil => simp [erase]
  | cons kv rest ih =>
    by_cases hk : kv.1 = k
    · rw [show erase (kv :: rest) k = erase rest k from by simp [erase, hk]]
      exact ih.trans (List.sublist_cons_self kv.1 (keys rest))
    · rw [show erase (kv :: rest) k = kv :: erase rest k from by simp [erase, hk]]
      exact List.Sublist.cons₂ kv.1 ih

theorem nodup_keys_erase {β : Type} {d : Dict β} (k : String)
    (h : (keys d).Nodup) : (keys (erase d k)).Nodup :=
  (keys_erase_sublist d k).nodup h

theorem get?_update {β : Type} (d : Dict β) (o : Dict β) (k : String)
    (ho : (keys o).Nodup) :
    get? (update d o) k = (get? o k).or (get? d k) := by
  induction o generalizing d with
  | nil => simp [update, get?]
  | cons kv rest ih =>
    have ho2 := List.nodup_cons.mp (show (kv.1 :: keys rest).Nodup from ho)
    have hstep : update d (kv :: rest) = update (insert d kv.1 kv.2) rest := rfl
    rw [hstep]
    by_cases hk : kv.1 = k
    · rw [ih (insert d kv.1 kv.2) ho2.2]
      have hrest : get? rest k = none := by
        cases hg : get? rest k with
        | none => rfl
        | some v =>
          have hm := mem_keys_of_mem (mem_of_get? hg)
          rw [← hk] at hm
          exact absurd hm ho2.1
      rw [hrest]
      have hins : get? (insert d kv.1 kv.2) k = some kv.2 := by
        rw [← hk]
        exact get?_insert_self d kv.1 kv.2
      rw [hins]
      simp [get?, hk]
    · rw [ih (insert d kv.1 kv.2) ho2.2, get?_insert_ne d kv.2 hk]
      simp [get?, hk]

theorem update_nil {β : Type} (d : Dict β) : update d [] = d := rfl

end Dict

/-!  Glob matching: the embedding of `fnmatch.fnmatch` as used by
`_is_ignore` and `_find_matching_files` (POSIX, so `normcase` is the
identity): `*` matches any sequence, `?` any single character, `[...]` a
character class (leading `!` negates; a `]` right after the opening — or
after the `!` — is a literal member; `a-b` is a range; an unclosed `[` is
a literal `[`). -/

/-- Scan a character-class body up to the closing `]`.  Returns the body
and the remainder after the `]`, or `none` when there is no closing `]`. -/
def findClose : List Char → Option (List Char × List Char)
  | [] => none
  | c :: rest =>
    if c = ']' then some ([], rest)
    else
      match findClose rest with
      | none => none
      | some (body, r) => some (c :: body, r)

theorem findClose_length :
    ∀ (l body r : List Char), findClose l = some (body, r) → r.length < l.length := by
  intro l
  induction l with
  | nil => intro body r h; simp [findClose] at h
  | cons c rest ih =>
    intro body r h
    unfold findClose at h
    by_cases hc : c = ']'
    · rw [if_pos hc] at h
      have h3 := Option.some.inj h
      have h2 : rest = r := congrArg Prod.snd h3
      rw [← h2, List.length_cons]
      omega
    · rw [if_neg hc] at h
      cases hfc : findClose rest with
      | none => rw [hfc] at h; exact absurd h (by simp)
      | some br =>
        rw [hfc] at h
        have h3 := Option.some.inj h
        have h2 : br.2 = r := congrArg Prod.snd h3
        have h5 := ih br.1 br.2 (by rw [hfc])
        rw [← h2, List.length_cons]
        omega

/-- Parse the part of a glob pattern following a `[` (the class opener):
negation flag, class body, remainder.  Mirrors `fnmatch.translate`. -/
def scanClass (l : List Char) : Option (Bool × List Char × List Char) :=
  match l with
  | '!' :: ']' :: rest2 => (findClose rest2).map (fun br => (true, ']' :: br.1, br.2))
  | '!' :: rest => (findClose rest).map (fun br => (true, br.1, br.2))
  | ']' :: rest2 => (findClose rest2).map (fun br => (false, ']' :: br.1, br.2))
  | _ => (findClose l).map (fun br => (false, br.1, br.2))

theorem findClose_map_length {rest : List Char}
    {g : List Char × List Char → Bool × List Char × List Char}
    (hg : ∀ br, (g br).2.2 = br.2) {neg : Bool} {body r : List Char}
    (h : (findClose rest).map g = some (neg, body, r)) : r.length < rest.length := by
  cases hfc : findClose rest with
  | none => rw [hfc] at h; exact absurd h (by simp)
  | some br =>
    rw [hfc, Option.map_some'] at h
    have h3 := Option.some.inj h
    have h2 : r = br.2 := by
      have h4 := hg br
      rw [h3] at h4
      exact h4
    have h5 := findClose_length rest br.1 br.2 (by rw [hfc])
    rw [h2]
    exact h5

theorem scanClass_length {l : List Char} {neg : Bool} {body r : List Char}
    (h : scanClass l = some (neg, body, r)) : r.length < l.length := by
  unfold scanClass at h
  split at h
  · have := findClose_map_length (fun _ => rfl) h
    simp only [List.length_cons]
    omega
  · have := findClose_map_length (fun _ => rfl) h
    simp only [List.length_cons]
    omega
  · have := findClose_map_length (fun _ => rfl) h
    simp only [List.length_cons]
    omega
  · exact findClose_map_length (fun _ => rfl) h

/-- Class-body characters turned into ranges (`a-b`; a `-` at either end
is a literal member, as in the regular expression `fnmatch` builds). -/
def toRanges : List Char → List (Char × Char)
  | [] => []
  | a :: '-' :: b :: rest => (a, b) :: toRanges rest
  | a :: rest => (a, a) :: toRanges rest

/-- Membership of a character in a (possibly negated) class. -/
def inClass (c : Char) (neg : Bool) (ranges : List (Char × Char)) : Bool :=
  let m := ranges.any (fun r => r.1 ≤ c && c ≤ r.2)
  if neg then !m else m

/-- Tokenized glob pattern. -/
inductive GlobTok where
  | star : GlobTok
  | qmark : GlobTok
  | lit : Char → GlobTok
  | cls : Bool → List (Char × Char) → GlobTok
deriving Repr, DecidableEq

/-- Tokenize a glob pattern, mirroring `fnmatch.translate`.  Structural
recursion on a fuel argument (kept at least the pattern length by the
wrapper, which `scanClass_length` shows is never exhausted). -/
def parseGlobAux : Nat → List Char → List GlobTok
  | _, [] => []
  | 0, _ => []
  | fuel + 1, '*' :: rest => GlobTok.star :: parseGlobAux fuel rest
  | fuel + 1, '?' :: rest => GlobTok.qmark :: parseGlobAux fuel rest
  | fuel + 1, '[' :: rest =>
    match scanClass rest with
    | none => GlobTok.lit '[' :: parseGlobAux fuel rest
    | some (neg, body, r) => GlobTok.cls neg (toRanges body) :: parseGlobAux fuel r
  | fuel + 1, c :: rest => GlobTok.lit c :: parseGlobAux fuel rest

/-- Tokenize a glob pattern. -/
def parseGlob (l : List Char) : List GlobTok := parseGlobAux l.length l

/-- Match a name against a tokenized glob pattern (fuel-indexed structural
recursion; the wrapper supplies fuel exceeding every reachable call). -/
def globTokMatchAux : Nat → List Char → List GlobTok → Bool
  | 0, _, _ => false
  | _ + 1, [], [] => true
  | fuel + 1, [], GlobTok.star :: ps => globTokMatchAux fuel [] ps
  | _ + 1, [], _ :: _ => false
  | _ + 1, _ :: _, [] => false
  | fuel + 1, c :: cs, GlobTok.star :: ps =>
    globTokMatchAux fuel (c :: cs) ps || globTokMatchAux fuel cs (GlobTok.star :: ps)
  | fuel + 1, _ :: cs, GlobTok.qmark :: ps => globTokMatchAux fuel cs ps
  | fuel + 1, c :: cs, GlobTok.lit d :: ps => (c == d) && globTokMatchAux fuel cs ps
  | fuel + 1, c :: cs, GlobTok.cls neg rs :: ps =>
    inClass c neg rs && globTokMatchAux fuel cs ps

/-- Match a name against a tokenized glob pattern. -/
def globTokMatch (s : List Char) (p : List GlobTok) : Bool :=
  globTokMatchAux (s.length + p.length + 1) s p

/-- Python `fnmatch.fnmatch(name, pat)` (POSIX: `normcase` is identity). -/
def fnmatch (name pat : String) : Bool :=
  globTokMatch name.data (parseGlob pat.data)

/-- Python `s.startswith(pre)` (list-level, so that it evaluates inside
the kernel). -/
def strStartsWith (s pre : String) : Bool := pre.data.isPrefixOf s.data

/-- Python `s.strip()`: drop leading and trailing whitespace. -/
def strTrim (s : String) : String :=
  ⟨((s.data.dropWhile Char.isWhitespace).reverse.dropWhile Char.isWhitespace).reverse⟩

/-- Python `s[n:]`. -/
def strDrop (s : String) (n : Nat) : String := ⟨s.data.drop n⟩

/-- Python `pattern.rstrip(&apos;/&apos;)`-style strip of trailing slashes
(written without the quote characters: strips every trailing `/`). -/
def rstripSlash (s : String) : String :=
  ⟨(s.data.reverse.dropWhile (fun c => c = '/')).reverse⟩

/-- Python `needle in haystack` substring containment test. -/
def isSubstring (needle hay : String) : Bool :=
  (List.range (hay.data.length + 1)).any
    (fun i => needle.data.isPrefixOf (hay.data.drop i))

/-- Python `s.lstrip(&apos;!&apos;)`: drop every leading `!`. -/
def stripBangs (s : String) : String :=
  ⟨s.data.dropWhile (fun c => c = '!')⟩

/-!  Data model.  The `Env` carries what the Python object computes in its
constructor (the loaded ignore rules) together with the fingerprint
function: `_hash_file` is sha256 over path + content, embedded as an
abstract function of (path, content) — deterministic, exactly as a fixed
hash is.  `RepoState` is the persisted metadata tree plus the working
tree (in `os.walk` order). -/

/-- Error outcomes of an operation: `exitCode n` models `exit(n)` (the
process terminates), the others model raised Python exceptions
(`TypeError` from `os.path.flatten` on `None`, `KeyError`, missing files,
`FileExistsError` from `makedirs`). -/
inductive Err where
  | exitCode : Nat → Err
  | typeError : Err
  | keyError : String → Err
  | fileNotFound : String → Err
  | fileExists : String → Err
deriving Repr, DecidableEq

/-- One record of `commits/info.json`: message, timestamp string, and the
id of the chronologically next commit (or none for the newest). -/
structure Commit where
  message : String
  datetime : String
  next : Option String
deriving Repr, DecidableEq

/-- Ambient environment: fingerprint function and the ignore rules loaded
at startup. -/
structure Env where
  hashFn : String → String → String
  ignorePatterns : List String
  negationPatterns : List String

/-- The repository: working tree (path → content, in walk order) plus the
persisted metadata: staging index `stage.json` (tombstones are keys
prefixed `!` mapped to `none`), staging blob directory (fingerprint →
bytes), `head`/`tail` pointer files (empty string = no commit), history
ledger, commit table, and each commit's cumulative snapshot document and
blob directory. -/
structure RepoState where
  worktree : Dict String
  index : Dict (Option String)
  stageBlobs : Dict String
  head : String
  tail : String
  history : List String
  commits : Dict Commit
  commitSnap : Dict (Dict (Option String))
  commitBlobs : Dict (Dict String)
deriving Repr, DecidableEq

/-- Embedding of `_load_ignore_patterns`: split the rules-file lines into
ignore patterns (seeded with the metadata directory `./.epoch`) and
negation patterns (lines starting `!`, marker stripped); blank lines and
`#` comments skipped. -/
def loadIgnorePatterns (lines : List String) : List String × List String :=
  lines.foldl
    (fun (acc : List String × List String) rawLine =>
      let line := strTrim rawLine
      if line = "" || strStartsWith line "#" then acc
      else if strStartsWith line "!" then (acc.1, acc.2 ++ [strTrim (strDrop line 1)])
      else (acc.1 ++ [line], acc.2))
    (["./.epoch"], [])

/-- A path matches one ignore/negation pattern: glob match on the full
path, or directory-prefix match (`_is_ignore`'s per-pattern condition). -/
def matchesPattern (relativePath pat : String) : Bool :=
  fnmatch relativePath pat || strStartsWith relativePath (rstripSlash pat ++ "/")

/-- Embedding of `_is_ignore` over explicit rule lists: first pass sets
ignored on any matching ignore pattern, second pass clears it on any
matching negation pattern. -/
def isIgnoreWith (ignorePatterns negationPatterns : List String)
    (relativePath : String) : Bool :=
  let afterIgnore := ignorePatterns.foldl
    (fun acc pat => if matchesPattern relativePath pat then true else acc) false
  negationPatterns.foldl
    (fun acc pat => if matchesPattern relativePath pat then false else acc) afterIgnore

/-- `_is_ignore` with the environment's loaded rules. -/
def isIgnore (env : Env) (relativePath : String) : Bool :=
  isIgnoreWith env.ignorePatterns env.negationPatterns relativePath

/-- Pattern normalization in `_find_matching_files`: a bare pattern (not
starting `./` or `../` and not `.`) is prefixed with `./`. -/
def normalizePattern (pat : String) : String :=
  if !strStartsWith pat "./" && !strStartsWith pat "../" && pat != "." then "./" ++ pat
  else pat

/-- One pattern targets one walked path in `_find_matching_files`:
normalized glob or directory-prefix match, and the path not ignored. -/
def matchesInput (env : Env) (pathname pat : String) : Bool :=
  let pat2 := normalizePattern pat
  (fnmatch pathname pat2 || strStartsWith pathname (rstripSlash pat2 ++ "/"))
    && !isIgnore env pathname

/-- Embedding of `_find_matching_files`: walk every working-tree file (in
walk order) and append it once per input pattern that targets it. -/
def findMatchingFiles (env : Env) (wt : Dict String) (patterns : List String) :
    List String :=
  (wt.map (fun fp =>
    patterns.foldl (fun acc pat =>
      if matchesInput env fp.1 pat then acc ++ [fp.1] else acc) [])).flatten

/-- `_hash_file` on a working-tree path: the fingerprint of path +
content (absent path would raise; returns `none` there, and callers only
apply it to walked paths). -/
def hashFile (env : Env) (wt : Dict String) (p : String) : Option String :=
  (Dict.get? wt p).map (env.hashFn p)

/-- Embedding of `_list_dir`: resolve the patterns and build the
path → fingerprint mapping, skipping ignored paths. -/
def listDir (env : Env) (wt : Dict String) (patterns : List String) :
    Dict (Option String) :=
  (findMatchingFiles env wt patterns).foldl
    (fun st p =>
      if isIgnore env p then st
      else
        match hashFile env wt p with
        | some h => Dict.insert st p (some h)
        | none => st)
    []

/-- Embedding of `_find_removed_files`: history paths absent from the
(non-ignored) listing of the whole tree.  `_list_dir` is called with the
root-path string, which Python iterates character-wise, yielding the
single pattern `.`. -/
def findRemovedFiles (env : Env) (st : RepoState) : List String :=
  let files := listDir env st.worktree ["."]
  st.history.filter (fun f => !(Dict.contains files f))

/-- Embedding of `_find_untracked_files`. -/
def findUntrackedFiles (env : Env) (st : RepoState) (filepaths : List String) :
    List String :=
  filepaths.filter (fun fp =>
    !(Dict.contains st.index fp) && !(st.history.contains fp) && !isIgnore env fp)

/-- The backward predecessor scan inside `_get_hash_from_last_commit`:
Python mutates `head` while iterating the commit table, so each
comparison uses the accumulator. -/
def predScan (commits : Dict Commit) (head : String) : String :=
  commits.foldl (fun h kv => if kv.2.next = some h then kv.1 else h) head

/-- The `while True` loop of `_get_hash_from_last_commit`, fuel-indexed:
`none` covers the function's own `return None`, a missing snapshot
document (an I/O error in Python), and fuel exhaustion (the Python loop
spinning forever when the scan makes no progress). -/
def getHashAux (commits : Dict Commit) (snaps : Dict (Dict (Option String)))
    (filepath : String) : String → Nat → Option (Option String × String)
  | _, 0 => none
  | head, fuel + 1 =>
    match Dict.get? snaps head with
    | none => none
    | some contents =>
      match Dict.get? contents filepath with
      | some v => some (v, head)
      | none =>
        let newHead := predScan commits head
        if newHead = "" then none else getHashAux commits snaps filepath newHead fuel

/-- Embedding of `_get_hash_from_last_commit`. -/
def getHashFromLastCommit (st : RepoState) (filepath : String) (fuel : Nat) :
    Option (Option String × String) :=
  if st.head = "" then none
  else if !(st.history.contains filepath) then none
  else getHashAux st.commits st.commitSnap filepath st.head fuel

/-- Embedding of `_is_modified`.  The backward lookup gets fuel
`commits.length + 1`: when the Python loop terminates at all it does so
within that many iterations, and a `None` result (which Python would
crash on when unpacking) and divergence are both surfaced as errors. -/
def isModified (env : Env) (st : RepoState) (filepath : String) : Except Err Bool :=
  match hashFile env st.worktree filepath with
  | none => .error (.fileNotFound filepath)
  | some hv =>
    if Dict.contains st.index filepath
        && decide ((Dict.get? st.index filepath).join ≠ some hv) then .ok true
    else if st.history.contains filepath && !(Dict.contains st.index filepath) then
      match getHashFromLastCommit st filepath (st.commits.length + 1) with
      | none => .error .typeError
      | some (lastHash, _) => if some hv ≠ lastHash then .ok true else .ok false
    else .ok false

/-- Embedding of `_save_blob`: write-once blob store; `none` as a
fingerprint reproduces Python's `os.path.flatten(dir, None)` `TypeError`;
reading a missing source file raises. -/
def saveBlob (wt : Dict String) (blobs : Dict String) (filepath : String)
    (hv : Option String) : Except Err (Dict String) :=
  match hv with
  | none => .error .typeError
  | some h =>
    if Dict.contains blobs h then .ok blobs
    else
      match Dict.get? wt filepath with
      | some content => .ok (Dict.insert blobs h content)
      | none => .error (.fileNotFound filepath)

/-- The blob-persisting loop of `stage` over the merged index. -/
def saveBlobsLoop (wt : Dict String) :
    List (String × Option String) → Dict String → Except Err (Dict String)
  | [], blobs => .ok blobs
  | kv :: rest, blobs =>
    match saveBlob wt blobs kv.1 kv.2 with
    | .ok b => saveBlobsLoop wt rest b
    | .error e => .error e

/-- The modified-or-untracked restriction of `stage` (evaluated
left-to-right over the candidate paths, as the list comprehension is). -/
def filterModified (env : Env) (st : RepoState) (untracked : List String) :
    List String → Except Err (List String)
  | [] => .ok []
  | p :: rest =>
    match isModified env st p with
    | .error e => .error e
    | .ok m =>
      match filterModified env st untracked rest with
      | .error e => .error e
      | .ok tail => .ok (if m || untracked.contains p then p :: tail else tail)

/-- The merge-drop loop of `stage`: delete from the fresh snapshot every
entry whose fingerprint equals the one already indexed. -/
def dropLoop : List (String × Option String) → Dict (Option String) →
    Dict (Option String)
  | [], ns => ns
  | kv :: rest, ns =>
    let ns1 :=
      match Dict.get? ns kv.1 with
      | some v => if kv.2 = v then Dict.erase ns kv.1 else ns
      | none => ns
    dropLoop rest ns1

/-- One removed file against every input pattern (the inner loop of the
deletion-detection step): each targeting pattern deletes the positive
entry and writes the tombstone. -/
def removedStep (patterns : List String) (f : String)
    (acc : Dict (Option String) × Dict (Option String)) :
    Dict (Option String) × Dict (Option String) :=
  patterns.foldl
    (fun acc pat =>
      if pat = "." || isSubstring f pat then
        (Dict.insert (Dict.erase acc.1 f) ("!" ++ f) none, Dict.insert acc.2 f none)
      else acc)
    acc

/-- The deletion-detection loop of `stage` over all removed files. -/
def removedLoop (patterns : List String) :
    List String → Dict (Option String) × Dict (Option String) →
    Dict (Option String) × Dict (Option String)
  | [], acc => acc
  | f :: rest, acc => removedLoop patterns rest (removedStep patterns f acc)

/-- Embedding of `stage`: resolve patterns, restrict to modified or
untracked paths when a commit exists, fingerprint, merge-drop, persist
blobs for every merged entry (including previously persisted tombstones —
see the totality analysis), detect deletions, persist the index.  Returns
the updated state and the returned index. -/
def stage (env : Env) (st : RepoState) (patterns : List String) :
    Except Err (RepoState × Dict (Option String)) :=
  let paths := findMatchingFiles env st.worktree patterns
  let untracked := findUntrackedFiles env st paths
  let pathsRes : Except Err (List String) :=
    if st.head ≠ "" then filterModified env st untracked paths else .ok paths
  match pathsRes with
  | .error e => .error e
  | .ok paths2 =>
    let newSnapshot := listDir env st.worktree paths2
    let newSnapshot2 := dropLoop st.index newSnapshot
    let merged := Dict.update st.index newSnapshot2
    match saveBlobsLoop st.worktree merged st.stageBlobs with
    | .error e => .error e
    | .ok blobs =>
      let removed := findRemovedFiles env st
      let res := removedLoop patterns removed (merged, newSnapshot2)
      .ok ({ st with index := res.1, stageBlobs := blobs }, res.1)

/-- History update at the end of `commit`: append each committed path not
yet recorded (order-preserving, no duplicates). -/
def appendNewHistory (history : List String) (ks : List String) : List String :=
  ks.foldl (fun h k => if h.contains k then h else h ++ [k]) history

/-- The tombstone-deletion loop of `commit` (over a snapshot of the index
keys): drop the path from the previous snapshot (Python raises `KeyError`
when it is absent), drop the tombstone from the index, best-effort remove
the path from history. -/
def removeTombstones :
    List String → Dict (Option String) → Dict (Option String) → List String →
    Except Err (Dict (Option String) × Dict (Option String) × List String)
  | [], prevSnap, index, history => .ok (prevSnap, index, history)
  | f :: rest, prevSnap, index, history =>
    if strStartsWith f "!" then
      let target := stripBangs f
      if Dict.contains prevSnap target then
        removeTombstones rest (Dict.erase prevSnap target) (Dict.erase index f)
          (history.erase target)
      else .error (.keyError target)
    else removeTombstones rest prevSnap index history

/-- The blob materialization of a non-first `commit`: for every
fingerprint of the new cumulative snapshot, copy the blob from the
previous commit's blob directory when present there, else from the
staging blob directory (missing in both raises). -/
def copyCommitBlobs (prevBlobs stageBlobs : Dict String) :
    List (String × Option String) → Dict String → Except Err (Dict String)
  | [], acc => .ok acc
  | kv :: rest, acc =>
    match kv.2 with
    | none => .error .typeError
    | some h =>
      match Dict.get? prevBlobs h with
      | some content => copyCommitBlobs prevBlobs stageBlobs rest (Dict.insert acc h content)
      | none =>
        match Dict.get? stageBlobs h with
        | some content => copyCommitBlobs prevBlobs stageBlobs rest (Dict.insert acc h content)
        | none => .error (.fileNotFound h)

/-- Embedding of `commit`.  `newId` stands for the generated `uuid4` and
`now` for the timestamp.  An empty index reports and exits; a pre-existing
commit directory for `newId` would make `makedirs` raise.  First commit:
the snapshot document is the index and the whole staging blob directory is
copied; otherwise the previous head's snapshot is loaded, tombstones are
applied to it (and to the index and history), the index is merged in, and
every referenced blob is materialized.  Afterwards the head record gets
its `next` pointer, the new record is appended, the staging area and index
are cleared, and history is extended. -/
def commit (env : Env) (st : RepoState) (message newId now : String) :
    Except Err RepoState :=
  if st.index.isEmpty then .error (.exitCode 1)
  else if Dict.contains st.commitBlobs newId then .error (.fileExists newId)
  else if st.head = "" then
    let commits := Dict.insert st.commits newId
      { message := message, datetime := now, next := none }
    let history := appendNewHistory st.history (Dict.keys st.index)
    .ok { st with
      head := newId, tail := newId,
      commitSnap := Dict.insert st.commitSnap newId st.index,
      commitBlobs := Dict.insert st.commitBlobs newId st.stageBlobs,
      commits := commits,
      stageBlobs := [], index := [],
      history := history }
  else
    match Dict.get? st.commitSnap st.head with
    | none => .error (.fileNotFound st.head)
    | some prevSnap =>
      match removeTombstones (Dict.keys st.index) prevSnap st.index st.history with
      | .error e => .error e
      | .ok (prevSnap2, index2, history2) =>
        let newSnap := Dict.update prevSnap2 index2
        let prevBlobs := (Dict.get? st.commitBlobs st.head).getD []
        match copyCommitBlobs prevBlobs st.stageBlobs newSnap [] with
        | .error e => .error e
        | .ok newBlobs =>
          match Dict.get? st.commits st.head with
          | none => .error (.keyError st.head)
          | some headRec =>
            let commits := Dict.insert
              (Dict.insert st.commits st.head { headRec with next := some newId })
              newId { message := message, datetime := now, next := none }
            let history3 := appendNewHistory history2 (Dict.keys index2)
            .ok { st with
              head := newId,
              commitSnap := Dict.insert st.commitSnap newId newSnap,
              commitBlobs := Dict.insert st.commitBlobs newId newBlobs,
              commits := commits,
              stageBlobs := [], index := [],
              history := history3 }

/-- Saving the staging area's blob bytes at the start of `revert`: every
index value that is truthy (`None` and the empty string are skipped) is
read from the staging blob directory (missing raises). -/
def saveStagedBlobs (stageBlobs : Dict String) :
    List (String × Option String) → Dict String → Except Err (Dict String)
  | [], acc => .ok acc
  | kv :: rest, acc =>
    match kv.2 with
    | none => saveStagedBlobs stageBlobs rest acc
    | some h =>
      if h = "" then saveStagedBlobs stageBlobs rest acc
      else
        match Dict.get? stageBlobs h with
        | some bytes => saveStagedBlobs stageBlobs rest (Dict.insert acc h bytes)
        | none => .error (.fileNotFound h)

/-- Overwriting the working tree from the target commit's snapshot during
`revert`: each snapshot entry's blob is read from the target commit's blob
directory and written over the working path. -/
def restoreWorktree (cBlobs : Dict String) :
    List (String × Option String) → Dict String → Except Err (Dict String)
  | [], wt => .ok wt
  | kv :: rest, wt =>
    match kv.2 with
    | none => .error .typeError
    | some h =>
      match Dict.get? cBlobs h with
      | some bytes => restoreWorktree cBlobs rest (Dict.insert wt kv.1 bytes)
      | none => .error (.fileNotFound h)

/-- The repository state at the moment `revert` invokes `commit`: index
replaced by the target snapshot, staging blob directory replaced by the
target's blob directory, working tree overwritten. -/
def revertPreCommit (st : RepoState) (oldSnapshot : Dict (Option String))
    (cBlobs : Dict String) (wt : Dict String) : RepoState :=
  { st with worktree := wt, index := oldSnapshot, stageBlobs := cBlobs }

/-- Embedding of `revert`: unknown id reports and exits; the staging index
and its referenced blob bytes are preserved in memory; the index is
replaced by the target commit's snapshot and the staging blob directory by
the target's blob directory (a missing directory walks as empty); the
working tree is overwritten from that snapshot; `commit` runs with an
auto-generated message; finally the preserved index and blob bytes are
written back. -/
def revert (env : Env) (st : RepoState) (commitId newId now : String) :
    Except Err RepoState :=
  if !(Dict.contains st.commits commitId) then .error (.exitCode 1)
  else
    match saveStagedBlobs st.stageBlobs st.index [] with
    | .error e => .error e
    | .ok saved =>
      match Dict.get? st.commitSnap commitId with
      | none => .error (.fileNotFound commitId)
      | some oldSnapshot =>
        let cBlobs := (Dict.get? st.commitBlobs commitId).getD []
        match restoreWorktree cBlobs oldSnapshot st.worktree with
        | .error e => .error e
        | .ok wt =>
          match commit env (revertPreCommit st oldSnapshot cBlobs wt)
              ("Revert back to " ++ commitId) newId now with
          | .error e => .error e
          | .ok st2 => .ok { st2 with index := st.index, stageBlobs := saved }

/-- Embedding of `init` on a working tree: empty staging index, empty
staging blob directory, empty head/tail, empty commit table, history file
holding only its comment line. -/
def initRepo (wt : Dict String) : RepoState :=
  { worktree := wt, index := [], stageBlobs := [], head := "", tail := "",
    history := [], commits := [], commitSnap := [], commitBlobs := [] }

/-- Repository states reachable by `init`, working-tree edits between
operations, and successful `stage`/`commit`/`revert` calls.  Commit
identifiers come from `uuid4`: fresh (not already in the commit table) and
non-empty. -/
inductive Reachable (env : Env) : RepoState → Prop where
  | init (wt : Dict String) : Reachable env (initRepo wt)
  | edit (st : RepoState) (wt : Dict String) :
      Reachable env st → Reachable env { st with worktree := wt }
  | stepStage (st : RepoState) (patterns : List String) (st2 : RepoState)
      (ret : Dict (Option String)) :
      Reachable env st → stage env st patterns = .ok (st2, ret) → Reachable env st2
  | stepCommit (st : RepoState) (message newId now : String) (st2 : RepoState) :
      Reachable env st → newId ≠ "" → Dict.contains st.commits newId = false →
      commit env st message newId now = .ok st2 → Reachable env st2
  | stepRevert (st : RepoState) (commitId newId now : String) (st2 : RepoState) :
      Reachable env st → newId ≠ "" → Dict.contains st.commits newId = false →
      revert env st commitId newId now = .ok st2 → Reachable env st2

/-!  Concrete fixtures used by witnesses and counterexamples.  The
fingerprint function is an injective stand-in for sha256 over
path + content. -/

/-- Example environment: no ignore rules file, so only the metadata
directory is ignored. -/
def exEnv : Env :=
  { hashFn := fun p c => "h" ++ p ++ c, ignorePatterns := ["./.epoch"],
    negationPatterns := [] }

/-- Extract the success value of a `stage` call (fixtures only apply this
to calls that succeed). -/
def exOk (e : Except Err (RepoState × Dict (Option String))) :
    RepoState × Dict (Option String) :=
  match e with
  | .ok v => v
  | .error _ => (initRepo [], [])

/-- Extract the success value of a `commit`/`revert` call. -/
def exOkS (e : Except Err RepoState) : RepoState :=
  match e with
  | .ok v => v
  | .error _ => initRepo []

/-- Working tree with two files. -/
def exTree : Dict String := [("./a", "x"), ("./b", "y")]

/-- After staging everything in `exTree`. -/
def exS1 : RepoState := (exOk (stage exEnv (initRepo exTree) ["."])).1

/-- After the first commit `c1`. -/
def exS2 : RepoState := exOkS (commit exEnv exS1 "first" "c1" "t1")

/-- After deleting `./b` from the working tree. -/
def exDel : RepoState := { exS2 with worktree := [("./a", "x")] }

/-- After staging the deletion (a tombstone for `./b` is now persisted in
the staging index). -/
def exS3 : RepoState := (exOk (stage exEnv exDel ["."])).1

/-!  Claim C5: ignore/negation precedence. -/

theorem foldNeg_stays_false (l : List String) (p : String) :
    l.foldl (fun acc pat => if matchesPattern p pat then false else acc) false
      = false := by
  induction l with
  | nil => rfl
  | cons pat rest ih =>
    rw [List.foldl_cons, ite_self]
    exact ih

theorem foldNeg_false_of_match (l : List String) (p : String) :
    ∀ acc : Bool, (∃ pat ∈ l, matchesPattern p pat = true) →
    l.foldl (fun acc pat => if matchesPattern p pat then false else acc) acc
      = false := by
  induction l with
  | nil => intro acc h; simp at h
  | cons pat rest ih =>
    intro acc h
    rw [List.foldl_cons]
    rcases h with ⟨q, hq, hm⟩
    rcases List.mem_cons.mp hq with h1 | h1
    · rw [h1] at hm
      rw [if_pos hm]
      exact foldNeg_stays_false rest p
    · by_cases h2 : matchesPattern p pat = true
      · rw [if_pos h2]
        exact foldNeg_stays_false rest p
      · rw [if_neg h2]
        exact ih _ ⟨q, h1, hm⟩

/-- C5: for every path and every rule set loaded from a rules file, if
the path matches at least one negation pattern (glob match on the full
path or directory-prefix match), `_is_ignore` returns false — whatever
ignore patterns also match and wherever the patterns sit in the file. -/
theorem ignore_negation_precedence (lines : List String) (p : String)
    (h : ∃ pat ∈ (loadIgnorePatterns lines).2, matchesPattern p pat = true) :
    isIgnoreWith (loadIgnorePatterns lines).1 (loadIgnorePatterns lines).2 p
      = false :=
  foldNeg_false_of_match (loadIgnorePatterns lines).2 p _ h

/-- Witness for C5 at a concrete rules file where an ignore pattern and a
negation pattern both match the path. -/
theorem ignore_negation_precedence_witness :
    (∃ pat ∈ (loadIgnorePatterns ["*.log", "!keep.log"]).2,
        matchesPattern "keep.log" pat = true) ∧
    (∃ pat ∈ (loadIgnorePatterns ["*.log", "!keep.log"]).1,
        matchesPattern "keep.log" pat = true) ∧
    isIgnoreWith (loadIgnorePatterns ["*.log", "!keep.log"]).1
      (loadIgnorePatterns ["*.log", "!keep.log"]).2 "keep.log" = false :=
  ⟨by decide, by decide,
    ignore_negation_precedence ["*.log", "!keep.log"] "keep.log" (by decide)⟩

/-!  Claim C2: commit empties the staging area; so does init. -/

/-- C2: after every successful `commit`, the staging index is the empty
mapping and the staging blob directory holds no files, and the same holds
immediately after repository init. -/
theorem commit_empties_staging (env : Env) (st : RepoState)
    (message newId now : String) (st2 : RepoState) (wt : Dict String)
    (h : commit env st message newId now = .ok st2) :
    (st2.index = [] ∧ st2.stageBlobs = []) ∧
    ((initRepo wt).index = [] ∧ (initRepo wt).stageBlobs = []) := by
  refine ⟨?_, rfl, rfl⟩
  unfold commit at h
  repeat' first
    | split at h
    | simp only [] at h
  all_goals first
    | exact Except.noConfusion h
    | (injection h with h2
       rw [← h2]
       exact ⟨rfl, rfl⟩)

/-- Witness for C2 at the concrete first commit of the fixture tree. -/
theorem commit_empties_staging_witness :
    (exS2.index = [] ∧ exS2.stageBlobs = []) ∧
    ((initRepo exTree).index = [] ∧ (initRepo exTree).stageBlobs = []) :=
  commit_empties_staging exEnv exS1 "first" "c1" "t1" exS2 exTree rfl

/-!  Claim C3: the empty-commit failure.  The code prints and calls
`exit(1)`: the process terminates; the core does not hand the caller a
non-fatal error value.  The claim is therefore corrected: the failure is
a reported process exit (before any persisted state is touched — the
emptiness check is the first thing `commit` does). -/

/-- Counterexample to C3 as stated: at a concrete repository,
`commit` on an empty staging index evaluates to the process-terminating
outcome `exit(1)` (`Err.exitCode 1`), not to a non-fatal error value. -/
theorem commit_empty_index_exits :
    commit exEnv (initRepo exTree) "m" "c9" "t9" = .error (Err.exitCode 1) := rfl

/-- C3 (amended): `commit(message)` on an empty staging index reports and
aborts by terminating the process with exit status 1, before mutating any
persisted repository state (the model returns the exit outcome without
touching the state). -/
theorem commit_empty_index_reports (env : Env) (st : RepoState)
    (message newId now : String) (h : st.index = []) :
    commit env st message newId now = .error (Err.exitCode 1) := by
  unfold commit
  rw [h]
  rfl

/-- Witness for the amended C3. -/
theorem commit_empty_index_reports_witness :
    commit exEnv (initRepo exTree) "m2" "c8" "t8" = .error (Err.exitCode 1) :=
  commit_empty_index_reports exEnv (initRepo exTree) "m2" "c8" "t8" rfl

/-!  Claim C9: `stage` is claimed total over program-persisted indices; in
fact a persisted tombstone from an earlier uncommitted `stage` call makes
the next `stage` call feed `None` to `os.path.join` in `_save_blob` and
raise `TypeError`.  The concrete run: commit `./a` and `./b`, delete
`./b` from disk, `stage(&apos;.&apos;)` once (persists the tombstone, succeeds),
`stage(&apos;.&apos;)` again (raises). -/

/-- C9: evaluating the code at the failing input.  The first `stage` after
the deletion succeeds and persists the tombstone index; the second one
raises `TypeError` in the blob-persisting loop instead of completing. -/
theorem stage_after_tombstone_raises :
    stage exEnv exDel ["."] = .ok (exS3, [("!./b", none)]) ∧
    exS3.index = [("!./b", none)] ∧
    stage exEnv exS3 ["."] = .error Err.typeError :=
  ⟨rfl, rfl, rfl⟩

/-!  Claim C7: revert and work in progress.  The code restores the
staging index wholesale and restores exactly the blob bytes referenced by
the staged fingerprints; a staging-area blob that no index entry
references any more (an orphan left behind by re-staging a modified file)
is destroyed by the revert.  The claim quantifies over every staging-area
blob, so it is corrected to the referenced ones. -/

/-- Single-file working tree for the revert fixtures. -/
def exTreeA : Dict String := [("./a", "x")]

/-- One commit `c1` of `./a`. -/
def exA1 : RepoState :=
  exOkS (commit exEnv (exOk (stage exEnv (initRepo exTreeA) ["."])).1 "first" "c1" "t1")

/-- Modify `./a` and stage it (staging blob for the new content). -/
def exB3 : RepoState :=
  (exOk (stage exEnv { exA1 with worktree := [("./a", "y")] } ["."])).1

/-- Modify `./a` again and stage again: the earlier staged blob is now an
orphan (still on disk, no longer referenced by the index). -/
def exB5 : RepoState :=
  (exOk (stage exEnv { exB3 with worktree := [("./a", "z")] } ["."])).1

/-- After reverting to `c1` from that state. -/
def exB6 : RepoState := exOkS (revert exEnv exB5 "c1" "c2" "t9")

/-- Counterexample to C7 as stated: before the revert the staging blob
area holds the orphaned blob of the superseded fingerprint; after the
revert completes that blob is gone (while the staging index itself is
intact). -/
theorem revert_drops_orphan_blob :
    Dict.contains exB5.stageBlobs "h./ay" = true ∧
    revert exEnv exB5 "c1" "c2" "t9" = .ok exB6 ∧
    Dict.contains exB6.stageBlobs "h./ay" = false ∧
    exB6.index = exB5.index :=
  ⟨rfl, rfl, rfl, rfl⟩

theorem saveStagedBlobs_spec (sb : Dict String) :
    ∀ (entries : List (String × Option String)) (acc out : Dict String),
    saveStagedBlobs sb entries acc = .ok out →
    (∀ k v, Dict.get? acc k = some v → Dict.get? sb k = some v) →
    ((∀ k v, Dict.get? out k = some v → Dict.get? sb k = some v) ∧
     (∀ k, (Dict.get? acc k).isSome → (Dict.get? out k).isSome) ∧
     (∀ f hv, (f, some hv) ∈ entries → hv ≠ "" →
        Dict.get? out hv = Dict.get? sb hv)) := by
  intro entries
  induction entries with
  | nil =>
    intro acc out h hacc
    injection h with h2
    subst h2
    exact ⟨hacc, fun k hk => hk, by simp⟩
  | cons kv rest ih =>
    intro acc out h hacc
    unfold saveStagedBlobs at h
    cases hkv : kv.2 with
    | none =>
      rw [hkv] at h
      rcases ih acc out h hacc with ⟨h1, h2, h3⟩
      refine ⟨h1, h2, ?_⟩
      intro f hv hmem hne
      rcases List.mem_cons.mp hmem with he | he
      · exact absurd (congrArg Prod.snd he) (by rw [hkv]; simp)
      · exact h3 f hv he hne
    | some hv0 =>
      rw [hkv] at h
      simp only [] at h
      by_cases hz : hv0 = ""
      · rw [if_pos hz] at h
        rcases ih acc out h hacc with ⟨h1, h2, h3⟩
        refine ⟨h1, h2, ?_⟩
        intro f hv hmem hne
        rcases List.mem_cons.mp hmem with he | he
        · have hveq : hv = hv0 := by
            have h8 := congrArg Prod.snd he
            rw [hkv] at h8
            exact Option.some.inj h8
          rw [hveq, hz] at hne
          exact absurd rfl hne
        · exact h3 f hv he hne
      · rw [if_neg hz] at h
        cases hsb : Dict.get? sb hv0 with
        | none => rw [hsb] at h; exact Except.noConfusion h
        | some bytes =>
          rw [hsb] at h
          have hacc2 : ∀ k v, Dict.get? (Dict.insert acc hv0 bytes) k = some v →
              Dict.get? sb k = some v := by
            intro k v hk
            by_cases hkk : hv0 = k
            · rw [← hkk] at hk ⊢
              rw [Dict.get?_insert_self] at hk
              rw [hsb, ← hk]
            · rw [Dict.get?_insert_ne acc bytes hkk] at hk
              exact hacc k v hk
          rcases ih (Dict.insert acc hv0 bytes) out h hacc2 with ⟨h1, h2, h3⟩
          refine ⟨h1, ?_, ?_⟩
          · intro k hk
            apply h2
            by_cases hkk : hv0 = k
            · rw [← hkk, Dict.get?_insert_self]; rfl
            · rw [Dict.get?_insert_ne acc bytes hkk]; exact hk
          · intro f hv hmem hne
            rcases List.mem_cons.mp hmem with he | he
            · have hveq : hv = hv0 := by
                have h8 := congrArg Prod.snd he
                rw [hkv] at h8
                exact Option.some.inj h8
              subst hveq
              have hout : (Dict.get? out hv).isSome := by
                apply h2
                rw [Dict.get?_insert_self]
                rfl
              rcases Option.isSome_iff_exists.mp hout with ⟨v, hval⟩
              rw [hval, h1 _ v hval]
            · exact h3 f hv he hne

/-- C7 (amended): `revert(C)` preserves the staging index exactly
(byte-for-byte), and preserves every staging-area blob that is referenced
by some staged fingerprint; only staging blobs referenced by no index
entry may be lost. -/
theorem revert_preserves_staged_work (env : Env) (st : RepoState)
    (commitId newId now : String) (st2 : RepoState)
    (h : revert env st commitId newId now = .ok st2) :
    st2.index = st.index ∧
    ∀ f hv, (f, some hv) ∈ st.index → hv ≠ "" →
      Dict.get? st2.stageBlobs hv = Dict.get? st.stageBlobs hv := by
  unfold revert at h
  split at h
  · exact Except.noConfusion h
  cases hsv : saveStagedBlobs st.stageBlobs st.index [] with
  | error e => rw [hsv] at h; exact Except.noConfusion h
  | ok saved =>
    rw [hsv] at h
    simp only [] at h
    cases hcs : Dict.get? st.commitSnap commitId with
    | none => rw [hcs] at h; exact Except.noConfusion h
    | some oldSnapshot =>
      rw [hcs] at h
      simp only [] at h
      cases hrw : restoreWorktree ((Dict.get? st.commitBlobs commitId).getD [])
          oldSnapshot st.worktree with
      | error e => rw [hrw] at h; exact Except.noConfusion h
      | ok wt =>
        rw [hrw] at h
        simp only [] at h
        cases hcm : commit env (revertPreCommit st oldSnapshot
            ((Dict.get? st.commitBlobs commitId).getD []) wt)
            ("Revert back to " ++ commitId) newId now with
        | error e => rw [hcm] at h; exact Except.noConfusion h
        | ok st3 =>
          rw [hcm] at h
          simp only [] at h
          injection h with h2
          rw [← h2]
          refine ⟨rfl, ?_⟩
          intro f hv hmem hne
          exact (saveStagedBlobs_spec st.stageBlobs st.index [] saved hsv
            (by intro k v hk; exact absurd hk (by simp [Dict.get?]))).2.2 f hv hmem hne

/-- Witness for the amended C7 at the orphan-blob fixture: the staged
fingerprint's blob survives the revert. -/
theorem revert_preserves_staged_work_witness :
    exB6.index = exB5.index ∧
    ∀ f hv, (f, some hv) ∈ exB5.index → hv ≠ "" →
      Dict.get? exB6.stageBlobs hv = Dict.get? exB5.stageBlobs hv :=
  revert_preserves_staged_work exEnv exB5 "c1" "c2" "t9" exB6 rfl

/-!  Claim C1: revert additivity.  The new commit produced by `revert(C)`
merges `C`'s snapshot *over the previous head's snapshot*, so paths
committed after `C` and absent from `C`'s snapshot stay in the new head's
snapshot: the new snapshot equals `prevHeadSnap.update(C.snap)`, not
`C.snap`.  Moreover, when `C` is the current head its own record is
modified (its `next` pointer is set to the new commit).  Both defects are
exhibited below; the amended statement proves the merged-snapshot shape
and the preservation of `C`'s data in the remaining cases. -/

/-- Two-commit fixture: commit `c1` tracks `./a`; `./b` is created and
committed by `c2`. -/
def exC2 : RepoState :=
  exOkS (commit exEnv
    (exOk (stage exEnv { exA1 with worktree := [("./a", "x"), ("./b", "y")] } ["."])).1
    "second" "c2" "t2")

/-- After `revert(c1)` from the two-commit fixture. -/
def exC3 : RepoState := exOkS (revert exEnv exC2 "c1" "c3" "t3")

/-- After `revert(c2)` (the current head) from the two-commit fixture. -/
def exC4 : RepoState := exOkS (revert exEnv exC2 "c2" "c3" "t3")

/-- Counterexample to C1 as stated: after `revert(c1)` the new head's
snapshot still contains `./b` (committed after `c1`), so it does not equal
`c1`'s snapshot; and after `revert(c2)` (with `c2` the head), `c2`'s own
commit record is modified — its `next` pointer changes from none to the
new commit. -/
theorem revert_snapshot_not_equal_target :
    revert exEnv exC2 "c1" "c3" "t3" = .ok exC3 ∧
    exC3.head = "c3" ∧
    Dict.get? ((Dict.get? exC3.commitSnap "c1").getD []) "./b" = none ∧
    Dict.get? ((Dict.get? exC3.commitSnap "c3").getD []) "./b" = some (some "h./by") ∧
    revert exEnv exC2 "c2" "c3" "t3" = .ok exC4 ∧
    Dict.get? exC2.commits "c2"
      = some { message := "second", datetime := "t2", next := none } ∧
    Dict.get? exC4.commits "c2"
      = some { message := "second", datetime := "t2", next := some "c3" } :=
  ⟨rfl, rfl, rfl, rfl, rfl, rfl, rfl⟩

theorem removeTombstones_no_bang :
    ∀ (ks : List String) (a b : Dict (Option String)) (hist : List String),
    (∀ k ∈ ks, strStartsWith k "!" = false) →
    removeTombstones ks a b hist = .ok (a, b, hist) := by
  intro ks
  induction ks with
  | nil => intro a b hist hk; rfl
  | cons k rest ih =>
    intro a b hist hk
    unfold removeTombstones
    rw [if_neg (by rw [hk k (List.mem_cons_self k rest)]; simp)]
    exact ih a b hist (fun k2 hk2 => hk k2 (List.mem_cons_of_mem k hk2))

/-- C1 (amended): after a successful `revert(C)` with a fresh commit id,
`head` names the brand-new commit, and that commit's cumulative snapshot
equals the previous head's snapshot overridden by `C`'s snapshot (so every
path of `C` carries `C`'s fingerprint, while paths committed after `C`
survive); `C`'s own snapshot document and blob directory are unmodified,
and `C`'s commit record is unmodified whenever `C` was not the previous
head (when it was, only its `next` pointer is set to the new commit). -/
theorem revert_merges_snapshot (env : Env) (st : RepoState)
    (commitId newId now : String) (st2 : RepoState)
    (cSnap pSnap : Dict (Option String))
    (h : revert env st commitId newId now = .ok st2)
    (hhead : st.head ≠ "")
    (hC : Dict.get? st.commitSnap commitId = some cSnap)
    (hP : Dict.get? st.commitSnap st.head = some pSnap)
    (hnb : ∀ kv ∈ cSnap, strStartsWith kv.1 "!" = false) :
    st2.head = newId ∧
    Dict.get? st2.commitSnap newId = some (Dict.update pSnap cSnap) ∧
    (commitId ≠ newId →
      Dict.get? st2.commitSnap commitId = some cSnap ∧
      Dict.get? st2.commitBlobs commitId = Dict.get? st.commitBlobs commitId) ∧
    (commitId ≠ newId → commitId ≠ st.head →
      Dict.get? st2.commits commitId = Dict.get? st.commits commitId) := by
  unfold revert at h
  split at h
  · exact Except.noConfusion h
  cases hsv : saveStagedBlobs st.stageBlobs st.index [] with
  | error e => rw [hsv] at h; exact Except.noConfusion h
  | ok saved =>
    rw [hsv] at h
    simp only [] at h
    rw [hC] at h
    simp only [] at h
    cases hrw : restoreWorktree ((Dict.get? st.commitBlobs commitId).getD [])
        cSnap st.worktree with
    | error e => rw [hrw] at h; exact Except.noConfusion h
    | ok wt =>
      rw [hrw] at h
      simp only [] at h
      cases hcm : commit env (revertPreCommit st cSnap
          ((Dict.get? st.commitBlobs commitId).getD []) wt)
          ("Revert back to " ++ commitId) newId now with
      | error e => rw [hcm] at h; exact Except.noConfusion h
      | ok st3 =>
        rw [hcm] at h
        simp only [] at h
        injection h with h2
        unfold commit at hcm
        simp only [revertPreCommit] at hcm
        split at hcm
        · exact Except.noConfusion hcm
        split at hcm
        · exact Except.noConfusion hcm
        -- the head-nonempty test is discharged by `hhead`; the next split
        -- is the lookup of the previous head's snapshot document
        split at hcm
        · exact Except.noConfusion hcm
        rename_i contents heqc
        rw [hP] at heqc
        injection heqc with heqc2
        subst heqc2
        rw [removeTombstones_no_bang (Dict.keys cSnap) pSnap cSnap st.history
          (by
            intro k hk2
            rcases List.mem_map.mp hk2 with ⟨kv, hkv, hfst⟩
            rw [← hfst]
            exact hnb kv hkv)] at hcm
        simp only [] at hcm
        cases hcb : copyCommitBlobs ((Dict.get? st.commitBlobs st.head).getD [])
            ((Dict.get? st.commitBlobs commitId).getD [])
            (Dict.update pSnap cSnap) [] with
        | error e => rw [hcb] at hcm; exact Except.noConfusion hcm
        | ok newBlobs =>
          rw [hcb] at hcm
          simp only [] at hcm
          cases hhr : Dict.get? st.commits st.head with
          | none => rw [hhr] at hcm; exact Except.noConfusion hcm
          | some headRec =>
            rw [hhr] at hcm
            simp only [] at hcm
            injection hcm with hcm2
            rw [← h2, ← hcm2]
            refine ⟨rfl, ?_, ?_, ?_⟩
            · exact Dict.get?_insert_self st.commitSnap newId (Dict.update pSnap cSnap)
            · intro hne
              constructor
              · rw [Dict.get?_insert_ne st.commitSnap (Dict.update pSnap cSnap)
                  (fun he => hne he.symm)]
                exact hC
              · exact Dict.get?_insert_ne st.commitBlobs newBlobs
                  (fun he => hne he.symm)
            · intro hne hnh
              rw [Dict.get?_insert_ne _ _ (fun he => hne he.symm)]
              exact Dict.get?_insert_ne st.commits _ (fun he => hnh he.symm)

/-!  Claims C8 and C10: the commit-chain invariant.  The commit table is
kept in insertion order, which for this program is chronological order, so
the invariant says: the stored list of commit records is a linked chain
(each record's `next` is the id of the next entry, the last record's
`next` is none), ids are distinct and non-empty, the first id is `tail`
and the last is `head`, the snapshot and blob directories exist exactly
for the table's ids, and every history path is a key of the head's
cumulative snapshot.  All of it is established by induction over
`Reachable`. -/

/-- The linked-chain shape of the commit table in storage order. -/
def Linked : List (String × Commit) → Prop
  | [] => True
  | [kv] => kv.2.next = none
  | kv :: kv2 :: rest => kv.2.next = some kv2.1 ∧ Linked (kv2 :: rest)

/-- The `log`-style forward traversal: follow `next` from a starting id,
collecting ids, with fuel (Python's loop has none; the chain length is
enough for a well-formed chain). -/
def chainList (commits : Dict Commit) : String → Nat → List String
  | _, 0 => []
  | cid, fuel + 1 =>
    match Dict.get? commits cid with
    | none => []
    | some c =>
      cid ::
        (match c.next with
        | none => []
        | some n => chainList commits n fuel)

/-- Invariant of a repository with at least one commit. -/
structure ChainOk (st : RepoState) : Prop where
  ne : st.commits ≠ []
  linked : Linked st.commits
  nodup : (Dict.keys st.commits).Nodup
  noEmptyId : "" ∉ Dict.keys st.commits
  tailFirst : (Dict.keys st.commits).head? = some st.tail
  headLast : (Dict.keys st.commits).getLast? = some st.head
  snapKeys : Dict.keys st.commitSnap = Dict.keys st.commits
  blobKeys : Dict.keys st.commitBlobs = Dict.keys st.commits
  histSnap : ∃ snap, Dict.get? st.commitSnap st.head = some snap ∧
      ∀ f ∈ st.history, (Dict.get? snap f).isSome = true

/-- The reachability invariant: before the first commit everything is
empty; afterwards the chain is well-formed. -/
structure Inv (st : RepoState) : Prop where
  historyNodup : st.history.Nodup
  emptyCase : st.head = "" → st.commits = [] ∧ st.tail = "" ∧ st.history = [] ∧
      st.commitSnap = [] ∧ st.commitBlobs = []
  chainCase : st.head ≠ "" → ChainOk st

theorem inv_of_fields (st2 st : RepoState)
    (hcommits : st2.commits = st.commits) (hsnap : st2.commitSnap = st.commitSnap)
    (hblobs : st2.commitBlobs = st.commitBlobs) (hhead : st2.head = st.head)
    (htail : st2.tail = st.tail) (hhist : st2.history = st.history)
    (h : Inv st) : Inv st2 := by
  refine ⟨hhist ▸ h.historyNodup, ?_, ?_⟩
  · intro he
    rw [hhead] at he
    rcases h.emptyCase he with ⟨a, b, c, d, e⟩
    exact ⟨hcommits.trans a, htail.trans b, hhist.trans c, hsnap.trans d,
      hblobs.trans e⟩
  · intro he
    rw [hhead] at he
    rcases h.chainCase he with ⟨c1, c2, c3, c4, c5, c6, c7, c8, c9⟩
    refine ⟨?_, ?_, ?_, ?_, ?_, ?_, ?_, ?_, ?_⟩
    · rw [hcommits]; exact c1
    · rw [hcommits]; exact c2
    · rw [hcommits]; exact c3
    · rw [hcommits]; exact c4
    · rw [hcommits, htail]; exact c5
    · rw [hcommits, hhead]; exact c6
    · rw [hsnap, hcommits]; exact c7
    · rw [hblobs, hcommits]; exact c8
    · rw [hsnap, hhead, hhist]; exact c9

namespace Dict

theorem insert_append_of_not_contains {β : Type} {d : Dict β} {k : String}
    (v : β) (h : contains d k = false) : insert d k v = d ++ [(k, v)] := by
  induction d with
  | nil => simp [insert]
  | cons kv rest ih =>
    by_cases hk : kv.1 = k
    · simp [contains, get?, hk] at h
    · simp [contains, get?, hk] at h
      simp [insert, hk]
      exact ih (by simp [contains, h])

theorem get?_insert_isSome_mono {β : Type} {d : Dict β} {k k2 : String} {v : β}
    (h : (get? d k).isSome = true) : (get? (insert d k2 v) k).isSome = true := by
  by_cases hk : k2 = k
  · rw [← hk] at h ⊢
    rw [get?_insert_self]
    rfl
  · rw [get?_insert_ne d v hk]
    exact h

theorem get?_update_isSome_mono {β : Type} {o : Dict β} :
    ∀ {d : Dict β} {k : String}, (get? d k).isSome = true →
    (get? (update d o) k).isSome = true := by
  induction o with
  | nil => intro d k h; exact h
  | cons kv rest ih =>
    intro d k h
    have hstep : update d (kv :: rest) = update (insert d kv.1 kv.2) rest := rfl
    rw [hstep]
    exact ih (get?_insert_isSome_mono h)

theorem get?_update_isSome_of_mem {β : Type} {o : Dict β} :
    ∀ {d : Dict β} {k : String}, k ∈ keys o →
    (get? (update d o) k).isSome = true := by
  induction o with
  | nil => intro d k h; simp [keys] at h
  | cons kv rest ih =>
    intro d k h
    have hstep : update d (kv :: rest) = update (insert d kv.1 kv.2) rest := rfl
    rw [hstep]
    rcases List.mem_cons.mp (show k ∈ kv.1 :: keys rest from h) with h1 | h1
    · apply get?_update_isSome_mono
      rw [← h1, get?_insert_self]
      rfl
    · exact ih h1

end Dict

theorem appendNewHistory_nodup {hist : List String} {ks : List String}
    (h : hist.Nodup) : (appendNewHistory hist ks).Nodup := by
  induction ks generalizing hist with
  | nil => exact h
  | cons k rest ih =>
    unfold appendNewHistory at ih ⊢
    rw [List.foldl_cons]
    by_cases hc : hist.contains k = true
    · rw [if_pos hc]
      exact ih h
    · rw [if_neg hc]
      apply ih
      rw [List.nodup_append]
      refine ⟨h, List.nodup_singleton k, ?_⟩
      intro a ha hb
      simp at hb
      rw [hb] at ha
      rw [Bool.not_eq_true, List.contains_eq_any_beq] at hc
      have : hist.any (fun x => k == x) = true := by
        apply List.any_eq_true.mpr
        exact ⟨k, ha, by simp⟩
      rw [this] at hc
      exact Bool.noConfusion hc

theorem appendNewHistory_mem {hist ks : List String} {f : String}
    (h : f ∈ appendNewHistory hist ks) : f ∈ hist ∨ f ∈ ks := by
  induction ks generalizing hist with
  | nil => exact Or.inl h
  | cons k rest ih =>
    unfold appendNewHistory at h ih
    rw [List.foldl_cons] at h
    by_cases hc : hist.contains k = true
    · rw [if_pos hc] at h
      rcases ih h with h1 | h1
      · exact Or.inl h1
      · exact Or.inr (List.mem_cons_of_mem k h1)
    · rw [if_neg hc] at h
      rcases ih h with h1 | h1
      · rcases List.mem_append.mp h1 with h2 | h2
        · exact Or.inl h2
        · simp at h2
          exact Or.inr (h2 ▸ List.mem_cons_self k rest)
      · exact Or.inr (List.mem_cons_of_mem k h1)

theorem removeTombstones_spec :
    ∀ (ks : List String) (a b : Dict (Option String)) (hist : List String)
      (a2 b2 : Dict (Option String)) (hist2 : List String),
    removeTombstones ks a b hist = .ok (a2, b2, hist2) →
    hist.Nodup →
    (hist2.Sublist hist ∧
     ∀ f ∈ hist2, Dict.get? a2 f = Dict.get? a f) := by
  intro ks
  induction ks with
  | nil =>
    intro a b hist a2 b2 hist2 h hn
    injection h with h2
    have ha : a2 = a := congrArg (fun x => x.1) h2.symm
    have hh : hist2 = hist := congrArg (fun x => x.2.2) h2.symm
    rw [ha, hh]
    exact ⟨List.Sublist.refl hist, fun f _ => rfl⟩
  | cons k rest ih =>
    intro a b hist a2 b2 hist2 h hn
    unfold removeTombstones at h
    by_cases hb : strStartsWith k "!" = true
    · rw [if_pos hb] at h
      simp only [] at h
      by_cases hc : Dict.contains a (stripBangs k) = true
      · rw [if_pos hc] at h
        have hsub := List.erase_sublist (stripBangs k) hist
        rcases ih (Dict.erase a (stripBangs k)) (Dict.erase b k)
            (hist.erase (stripBangs k)) a2 b2 hist2 h (hn.sublist hsub) with ⟨h1, h2⟩
        refine ⟨h1.trans hsub, ?_⟩
        intro f hf
        have hfe : f ∈ hist.erase (stripBangs k) := h1.mem hf
        have hne : f ≠ stripBangs k := by
          by_cases ht : stripBangs k ∈ hist
          · exact ((List.Nodup.mem_erase_iff hn).mp hfe).1
          · intro he
            rw [List.erase_of_not_mem ht] at hfe
            rw [he] at hfe
            exact ht hfe
        rw [h2 f hf]
        exact Dict.get?_erase_ne a (fun he => hne he.symm)
      · rw [if_neg hc] at h
        exact Except.noConfusion h
    · rw [if_neg hb] at h
      exact ih a b hist a2 b2 hist2 h hn

theorem mem_of_getLast?_some {α : Type} :
    ∀ {l : List α} {a : α}, l.getLast? = some a → a ∈ l := by
  intro l
  induction l with
  | nil => intro a h; simp at h
  | cons x rest ih =>
    intro a h
    cases rest with
    | nil =>
      simp at h
      rw [← h]
      exact List.mem_cons_self x []
    | cons y rest2 =>
      rw [List.getLast?_cons_cons] at h
      exact List.mem_cons_of_mem x (ih h)

theorem linked_snoc :
    ∀ (l : List (String × Commit)) (hid : String) (c newRec : Commit)
      (newId : String),
    Linked l → l.getLast? = some (hid, c) → (Dict.keys l).Nodup →
    newRec.next = none →
    Linked (Dict.insert l hid { c with next := some newId } ++ [(newId, newRec)]) := by
  intro l
  induction l with
  | nil => intro hid c newRec newId _ hlast _ _; simp at hlast
  | cons kv rest ih =>
    intro hid c newRec newId hl hlast hnd hrec
    cases rest with
    | nil =>
      simp at hlast
      have hk1 : kv.1 = hid := by rw [hlast]
      have hins : Dict.insert [kv] hid { c with next := some newId }
          = [(hid, { c with next := some newId })] := by
        simp [Dict.insert, hk1]
      rw [hins]
      exact ⟨rfl, hrec⟩
    | cons kv2 rest2 =>
      have hl2 : kv.2.next = some kv2.1 ∧ Linked (kv2 :: rest2) := hl
      have hlast2 : (kv2 :: rest2).getLast? = some (hid, c) := by
        rw [← hlast]
        exact List.getLast?_cons_cons.symm
      have hnd2 := List.nodup_cons.mp
        (show (kv.1 :: Dict.keys (kv2 :: rest2)).Nodup from hnd)
      have hmem : hid ∈ Dict.keys (kv2 :: rest2) := by
        have hm2 : (hid, c) ∈ kv2 :: rest2 := mem_of_getLast?_some hlast2
        exact Dict.mem_keys_of_mem hm2
      have hk1 : kv.1 ≠ hid := by
        intro he
        rw [he] at hnd2
        exact hnd2.1 hmem
      have hins : Dict.insert (kv :: kv2 :: rest2) hid { c with next := some newId }
          = kv :: Dict.insert (kv2 :: rest2) hid { c with next := some newId } := by
        simp [Dict.insert, hk1]
      rw [hins]
      have hrest := ih hid c newRec newId hl2.2 hlast2 hnd2.2 hrec
      have hkeys : Dict.keys (Dict.insert (kv2 :: rest2) hid
          { c with next := some newId }) = Dict.keys (kv2 :: rest2) :=
        Dict.keys_insert_of_contains _ (by
          rw [Dict.contains_eq_true_iff]
          exact Option.isSome_iff_exists.mp (Dict.get?_isSome_of_mem_keys hmem))
      cases hins2 : Dict.insert (kv2 :: rest2) hid { c with next := some newId } with
      | nil =>
        rw [hins2] at hkeys
        simp [Dict.keys] at hkeys
      | cons kv4 rest4 =>
        have hhead4 : kv4.1 = kv2.1 := by
          rw [hins2] at hkeys
          have := congrArg List.head? hkeys
          simp [Dict.keys] at this
          exact this
        rw [hins2] at hrest
        refine ⟨?_, hrest⟩
        rw [hl2.1, hhead4]

theorem linked_filter_none :
    ∀ (l : List (String × Commit)) (x : String × Commit),
    Linked l → l.getLast? = some x →
    (l.filter (fun kv => kv.2.next.isNone)).map Prod.fst = [x.1] := by
  intro l
  induction l with
  | nil => intro x _ hlast; simp at hlast
  | cons kv rest ih =>
    intro x hl hlast
    cases rest with
    | nil =>
      simp at hlast
      have hnone : kv.2.next = none := hl
      rw [← hlast]
      simp [List.filter_cons, hnone]
    | cons kv2 rest2 =>
      have hl2 : kv.2.next = some kv2.1 ∧ Linked (kv2 :: rest2) := hl
      have hlast2 : (kv2 :: rest2).getLast? = some x := by
        rw [← hlast]
        exact List.getLast?_cons_cons.symm
      have hsome : kv.2.next.isNone = false := by rw [hl2.1]; rfl
      rw [List.filter_cons, hsome]
      simp only [Bool.false_eq_true, if_false]
      exact ih x hl2.2 hlast2

theorem linked_nexts :
    ∀ (l : List (String × Commit)), Linked l →
    l.filterMap (fun kv => kv.2.next) = (Dict.keys l).tail := by
  intro l
  induction l with
  | nil => intro _; rfl
  | cons kv rest ih =>
    intro hl
    cases rest with
    | nil =>
      have hnone : kv.2.next = none := hl
      simp [List.filterMap, hnone, Dict.keys]
    | cons kv2 rest2 =>
      have hl2 : kv.2.next = some kv2.1 ∧ Linked (kv2 :: rest2) := hl
      rw [List.filterMap_cons, hl2.1]
      simp only []
      rw [ih hl2.2]
      rfl

theorem any_next_eq_contains :
    ∀ (l : List (String × Commit)) (cid : String),
    l.any (fun kv => kv.2.next == some cid)
      = (l.filterMap (fun kv => kv.2.next)).contains cid := by
  intro l cid
  induction l with
  | nil => rfl
  | cons kv rest ih =>
    rw [List.any_cons, List.filterMap_cons]
    cases hn : kv.2.next with
    | none =>
      simp only [hn]
      rw [ih]
      simp
    | some n =>
      simp only [hn]
      rw [List.contains_cons, ← ih]
      by_cases he : n = cid
      · simp [he]
      · have h1 : (some n == some cid) = false := by
          simp [he]
        have h2 : (cid == n) = false := by
          apply beq_eq_false_iff_ne.mpr
          intro h3
          exact he h3.symm
        rw [h1, h2]

theorem filter_unreferenced_of_nodup :
    ∀ (t : String) (ks : List String), (t :: ks).Nodup →
    (t :: ks).filter (fun cid => !ks.contains cid) = [t] := by
  intro t ks hnd
  have hnd2 := List.nodup_cons.mp hnd
  rw [List.filter_cons]
  have ht : (!ks.contains t) = true := by
    cases hc : ks.contains t with
    | false => rfl
    | true =>
      exact absurd (by simpa using hc) hnd2.1
  rw [ht]
  simp only [if_true]
  have hrest : ks.filter (fun cid => !ks.contains cid) = [] := by
    apply List.filter_eq_nil_iff.mpr
    intro a ha
    have : ks.contains a = true := by simpa using ha
    rw [this]
    simp
  rw [hrest]

theorem chainList_spec (full : Dict Commit) :
    ∀ (l : List (String × Commit)), Linked l →
    (∀ kv ∈ l, Dict.get? full kv.1 = some kv.2) →
    ∀ k c, l.head? = some (k, c) →
    chainList full k l.length = Dict.keys l := by
  intro l
  induction l with
  | nil => intro _ _ k c hh; simp at hh
  | cons kv rest ih =>
    intro hl hget k c hh
    simp at hh
    have hk : kv.1 = k := by rw [hh]
    have hc : kv.2 = c := by rw [hh]
    have hgk : Dict.get? full k = some c := by
      rw [← hk, ← hc]
      exact hget kv (List.mem_cons_self kv rest)
    show chainList full k (rest.length + 1) = Dict.keys (kv :: rest)
    unfold chainList
    rw [hgk]
    simp only []
    cases rest with
    | nil =>
      have hnone : kv.2.next = none := hl
      rw [← hc, hnone]
      simp [Dict.keys, hk]
    | cons kv2 rest2 =>
      have hl2 : kv.2.next = some kv2.1 ∧ Linked (kv2 :: rest2) := hl
      rw [← hc, hl2.1]
      simp only []
      have hrec := ih hl2.2
        (fun kv3 hm => hget kv3 (List.mem_cons_of_mem kv hm))
        kv2.1 kv2.2 (by simp)
      rw [hrec]
      simp [Dict.keys, hk]

theorem keys_getLast?_eq {β : Type} (l : Dict β) :
    (Dict.keys l).getLast? = l.getLast?.map Prod.fst := by
  unfold Dict.keys
  exact List.getLast?_map Prod.fst l

theorem inv_init (wt : Dict String) : Inv (initRepo wt) := by
  refine ⟨List.nodup_nil, ?_, ?_⟩
  · intro _
    exact ⟨rfl, rfl, rfl, rfl, rfl⟩
  · intro he
    exact absurd rfl he

theorem stage_ok_meta {env : Env} {st : RepoState} {patterns : List String}
    {st2 : RepoState} {ret : Dict (Option String)}
    (h : stage env st patterns = .ok (st2, ret)) :
    st2.commits = st.commits ∧ st2.commitSnap = st.commitSnap ∧
    st2.commitBlobs = st.commitBlobs ∧ st2.head = st.head ∧
    st2.tail = st.tail ∧ st2.history = st.history := by
  unfold stage at h
  repeat' first
    | split at h
    | simp only [] at h
  all_goals first
    | exact Except.noConfusion h
    | (injection h with h2
       simp only [Prod.mk.injEq] at h2
       rw [← h2.1]
       exact ⟨rfl, rfl, rfl, rfl, rfl, rfl⟩)

theorem inv_stage {env : Env} {st : RepoState} {patterns : List String}
    {st2 : RepoState} {ret : Dict (Option String)}
    (hinv : Inv st) (h : stage env st patterns = .ok (st2, ret)) : Inv st2 := by
  rcases stage_ok_meta h with ⟨h1, h2, h3, h4, h5, h6⟩
  exact inv_of_fields _ _ h1 h2 h3 h4 h5 h6 hinv

theorem inv_commit {env : Env} {st : RepoState} {message newId now : String}
    {st2 : RepoState}
    (hinv : Inv st) (hne : newId ≠ "")
    (hfresh : Dict.contains st.commits newId = false)
    (h : commit env st message newId now = .ok st2) : Inv st2 := by
  unfold commit at h
  split at h
  · exact Except.noConfusion h
  split at h
  · exact Except.noConfusion h
  rename_i hblobfresh
  split at h
  · -- first commit
    rename_i hhead0
    rcases hinv.emptyCase hhead0 with ⟨hc, ht, hh, hcs, hcb⟩
    simp only [] at h
    injection h with h2
    rw [← h2, hc, hcs, hcb, hh]
    refine ⟨?_, ?_, ?_⟩
    · exact appendNewHistory_nodup List.nodup_nil
    · intro he
      exact absurd he hne
    · intro _
      refine ⟨?_, ?_, ?_, ?_, ?_, ?_, ?_, ?_, ?_⟩
      · simp [Dict.insert]
      · exact rfl
      · simp [Dict.insert, Dict.keys]
      · simp [Dict.insert, Dict.keys]
        exact fun he => hne he.symm
      · rfl
      · rfl
      · rfl
      · rfl
      · refine ⟨st.index, Dict.get?_insert_self [] newId st.index, ?_⟩
        intro f hf
        rcases appendNewHistory_mem hf with h7 | h7
        · simp at h7
        · exact Dict.get?_isSome_of_mem_keys h7
  · -- later commit
    rename_i hheadne
    have hchain := hinv.chainCase hheadne
    split at h
    · exact Except.noConfusion h
    rename_i prevSnap hprev
    split at h
    · exact Except.noConfusion h
    rename_i trip prevSnap2 index2 history2 htrip
    try simp only [] at h
    split at h
    · exact Except.noConfusion h
    rename_i newBlobs hblobs
    split at h
    · exact Except.noConfusion h
    rename_i headRec hheadrec
    try simp only [] at h
    injection h with h2
    rcases removeTombstones_spec (Dict.keys st.index) prevSnap st.index st.history
      prevSnap2 index2 history2 htrip hinv.historyNodup with ⟨hsub, hpres⟩
    have hheadmem : st.head ∈ Dict.keys st.commits :=
      Dict.mem_keys_of_mem (Dict.mem_of_get? hheadrec)
    have hnotmem : newId ∉ Dict.keys st.commits :=
      Dict.not_mem_keys_of_not_contains hfresh
    have hhne2 : st.head ≠ newId := fun he => hnotmem (he ▸ hheadmem)
    have hinner : Dict.contains
        (Dict.insert st.commits st.head { headRec with next := some newId })
        newId = false := by
      rw [Dict.contains_eq_false_iff,
        Dict.get?_insert_ne st.commits _ hhne2,
        ← Dict.contains_eq_false_iff]
      exact hfresh
    have hkeysinner : Dict.keys
        (Dict.insert st.commits st.head { headRec with next := some newId })
        = Dict.keys st.commits :=
      Dict.keys_insert_of_contains _ (by
        rw [Dict.contains_eq_true_iff]
        exact ⟨headRec, hheadrec⟩)
    have hcommits2 : Dict.insert
        (Dict.insert st.commits st.head { headRec with next := some newId })
        newId { message := message, datetime := now, next := none }
        = Dict.insert st.commits st.head { headRec with next := some newId }
          ++ [(newId, { message := message, datetime := now, next := none })] :=
      Dict.insert_append_of_not_contains _ hinner
    have hkeys2 : Dict.keys (Dict.insert
        (Dict.insert st.commits st.head { headRec with next := some newId })
        newId { message := message, datetime := now, next := none })
        = Dict.keys st.commits ++ [newId] := by
      rw [hcommits2]
      unfold Dict.keys
      rw [List.map_append]
      rw [show List.map Prod.fst (Dict.insert st.commits st.head
        { headRec with next := some newId }) = Dict.keys st.commits from hkeysinner]
      rfl
    have hlastpair : st.commits.getLast? = some (st.head, headRec) := by
      have h7 := hchain.headLast
      rw [keys_getLast?_eq] at h7
      rcases Option.map_eq_some'.mp h7 with ⟨x, hx, hfst⟩
      have hxmem : x ∈ st.commits := mem_of_getLast?_some hx
      have hxg : Dict.get? st.commits x.1 = some x.2 := by
        apply Dict.get?_of_mem_nodup hchain.nodup
        exact hxmem
      rw [hfst] at hxg
      rw [hheadrec] at hxg
      have hx2 : x.2 = headRec := Option.some.inj hxg.symm
      rw [hx]
      rw [show x = (st.head, headRec) from Prod.ext hfst hx2]
    have hsnapfresh : Dict.contains st.commitSnap newId = false := by
      rw [Dict.contains_eq_false_iff]
      rw [← Dict.contains_eq_false_iff]
      cases hcc : Dict.contains st.commitSnap newId with
      | false => rfl
      | true =>
        exfalso
        rw [Dict.contains_eq_true_iff] at hcc
        rcases hcc with ⟨v, hv⟩
        have := Dict.mem_keys_of_mem (Dict.mem_of_get? hv)
        rw [hchain.snapKeys] at this
        exact hnotmem this
    have hblobfresh2 : Dict.contains st.commitBlobs newId = false := by
      cases hcc : Dict.contains st.commitBlobs newId with
      | false => rfl
      | true => exact absurd hcc hblobfresh
    rw [← h2]
    refine ⟨?_, ?_, ?_⟩
    · exact appendNewHistory_nodup (hinv.historyNodup.sublist hsub)
    · intro he
      exact absurd he hne
    · intro _
      refine ⟨?_, ?_, ?_, ?_, ?_, ?_, ?_, ?_, ?_⟩
      · show Dict.insert _ newId _ ≠ []
        rw [hcommits2]
        intro he
        rcases List.append_eq_nil.mp he with ⟨_, h8⟩
        exact List.noConfusion h8
      · show Linked (Dict.insert _ newId _)
        rw [hcommits2]
        exact linked_snoc st.commits st.head headRec _ newId hchain.linked
          hlastpair hchain.nodup rfl
      · show (Dict.keys (Dict.insert _ newId _)).Nodup
        rw [hkeys2]
        rw [List.nodup_append]
        refine ⟨hchain.nodup, List.nodup_singleton newId, ?_⟩
        intro a ha hb
        simp at hb
        rw [hb] at ha
        exact hnotmem ha
      · show "" ∉ Dict.keys (Dict.insert _ newId _)
        rw [hkeys2]
        intro he
        rcases List.mem_append.mp he with h8 | h8
        · exact hchain.noEmptyId h8
        · simp at h8
          exact hne h8.symm
      · show (Dict.keys (Dict.insert _ newId _)).head? = some st.tail
        rw [hkeys2]
        cases hkc : Dict.keys st.commits with
        | nil =>
          exfalso
          apply hchain.ne
          cases hlc : st.commits with
          | nil => rfl
          | cons a b =>
            rw [hlc] at hkc
            exact List.noConfusion (show a.1 :: Dict.keys b = [] from hkc)
        | cons t ks =>
          have h9 := hchain.tailFirst
          rw [hkc] at h9
          simp at h9
          simp [h9]
      · show (Dict.keys (Dict.insert _ newId _)).getLast? = some newId
        rw [hkeys2]
        exact List.getLast?_concat _
      · show Dict.keys (Dict.insert st.commitSnap newId _) = _
        rw [Dict.keys_insert_of_not_contains _ hsnapfresh, hchain.snapKeys, hkeys2]
      · show Dict.keys (Dict.insert st.commitBlobs newId _) = _
        rw [Dict.keys_insert_of_not_contains _ hblobfresh2, hchain.blobKeys, hkeys2]
      · refine ⟨Dict.update prevSnap2 index2,
          Dict.get?_insert_self st.commitSnap newId _, ?_⟩
        intro f hf
        rcases appendNewHistory_mem hf with h7 | h7
        · -- f survives the tombstone pass: still in the previous snapshot
          have hf2 : (Dict.get? prevSnap2 f).isSome = true := by
            rw [hpres f h7]
            rcases hchain.histSnap with ⟨snap, hsnap, hall⟩
            rw [hprev] at hsnap
            have hseq : prevSnap = snap := Option.some.inj hsnap
            rw [hseq]
            exact hall f (hsub.mem h7)
          exact Dict.get?_update_isSome_mono hf2
        · exact Dict.get?_update_isSome_of_mem h7

theorem inv_revert {env : Env} {st : RepoState} {commitId newId now : String}
    {st2 : RepoState}
    (hinv : Inv st) (hne : newId ≠ "")
    (hfresh : Dict.contains st.commits newId = false)
    (h : revert env st commitId newId now = .ok st2) : Inv st2 := by
  unfold revert at h
  split at h
  · exact Except.noConfusion h
  cases hsv : saveStagedBlobs st.stageBlobs st.index [] with
  | error e => rw [hsv] at h; exact Except.noConfusion h
  | ok saved =>
    rw [hsv] at h
    simp only [] at h
    cases hcs : Dict.get? st.commitSnap commitId with
    | none => rw [hcs] at h; exact Except.noConfusion h
    | some oldSnapshot =>
      rw [hcs] at h
      simp only [] at h
      cases hrw : restoreWorktree ((Dict.get? st.commitBlobs commitId).getD [])
          oldSnapshot st.worktree with
      | error e => rw [hrw] at h; exact Except.noConfusion h
      | ok wt =>
        rw [hrw] at h
        simp only [] at h
        cases hcm : commit env (revertPreCommit st oldSnapshot
            ((Dict.get? st.commitBlobs commitId).getD []) wt)
            ("Revert back to " ++ commitId) newId now with
        | error e => rw [hcm] at h; exact Except.noConfusion h
        | ok st3 =>
          rw [hcm] at h
          simp only [] at h
          injection h with h2
          have hinv1 : Inv (revertPreCommit st oldSnapshot
              ((Dict.get? st.commitBlobs commitId).getD []) wt) :=
            inv_of_fields _ st rfl rfl rfl rfl rfl rfl hinv
          have hinv3 : Inv st3 := inv_commit hinv1 hne hfresh hcm
          rw [← h2]
          exact inv_of_fields _ st3 rfl rfl rfl rfl rfl rfl hinv3

/-- Every reachable repository state satisfies the invariant. -/
theorem reachable_inv {env : Env} {st : RepoState}
    (h : Reachable env st) : Inv st := by
  induction h with
  | init wt => exact inv_init wt
  | edit st wt _ ih => exact inv_of_fields _ st rfl rfl rfl rfl rfl rfl ih
  | stepStage st patterns st2 ret _ heq ih => exact inv_stage ih heq
  | stepCommit st message newId now st2 _ hne hfresh heq ih =>
    exact inv_commit ih hne hfresh heq
  | stepRevert st commitId newId now st2 _ hne hfresh heq ih =>
    exact inv_revert ih hne hfresh heq

/-- C8: in every reachable repository state with a non-empty chain,
exactly one commit record has no `next` pointer and it is the one named by
`head`; exactly one commit id is referenced by no record's `next` and it
is the one named by `tail`; and following `next` from `tail` (the `log`
traversal, with fuel the table size) visits every commit id exactly once
(the id list is the whole key set, which is duplicate-free) and terminates
at `head`. -/
theorem chain_integrity (env : Env) (st : RepoState)
    (hr : Reachable env st) (hne : st.head ≠ "") :
    (st.commits.filter (fun kv => kv.2.next.isNone)).map Prod.fst = [st.head] ∧
    (Dict.keys st.commits).filter
      (fun cid => !(st.commits.any (fun kv => kv.2.next == some cid)))
      = [st.tail] ∧
    chainList st.commits st.tail st.commits.length = Dict.keys st.commits ∧
    (Dict.keys st.commits).Nodup ∧
    (Dict.keys st.commits).getLast? = some st.head := by
  have hchain := (reachable_inv hr).chainCase hne
  have hlastpair : ∃ x, st.commits.getLast? = some x ∧ x.1 = st.head := by
    have h7 := hchain.headLast
    rw [keys_getLast?_eq] at h7
    exact Option.map_eq_some'.mp h7
  rcases hlastpair with ⟨x, hx, hxfst⟩
  refine ⟨?_, ?_, ?_, hchain.nodup, hchain.headLast⟩
  · rw [linked_filter_none st.commits x hchain.linked hx, hxfst]
  · have hkeys : ∃ t ks, Dict.keys st.commits = t :: ks ∧ t = st.tail := by
      cases hkc : Dict.keys st.commits with
      | nil =>
        exfalso
        apply hchain.ne
        cases hlc : st.commits with
        | nil => rfl
        | cons a b =>
          rw [hlc] at hkc
          exact List.noConfusion (show a.1 :: Dict.keys b = [] from hkc)
      | cons t ks =>
        have h9 := hchain.tailFirst
        rw [hkc] at h9
        simp at h9
        exact ⟨t, ks, rfl, h9⟩
    rcases hkeys with ⟨t, ks, hkc, ht⟩
    have hfun : (fun cid => !(st.commits.any (fun kv => kv.2.next == some cid)))
        = fun cid => !(ks.contains cid) := by
      funext cid
      rw [any_next_eq_contains, linked_nexts st.commits hchain.linked, hkc]
      rfl
    rw [hfun, hkc]
    rw [filter_unreferenced_of_nodup t ks (hkc ▸ hchain.nodup)]
    rw [ht]
  · have hheadq : ∃ y c, st.commits.head? = some (y, c) := by
      cases hlc : st.commits with
      | nil => exact absurd hlc hchain.ne
      | cons a b => exact ⟨a.1, a.2, by simp⟩
    rcases hheadq with ⟨y, c, hy⟩
    have hyt : y = st.tail := by
      have h9 := hchain.tailFirst
      have h10 : (Dict.keys st.commits).head? = some y := by
        cases hlc : st.commits with
        | nil => rw [hlc] at hy; exact absurd hy (by simp)
        | cons a b =>
          rw [hlc] at hy
          simp at hy
          show (Dict.keys (a :: b)).head? = some y
          have ha1 : a.1 = y := by rw [hy]
          simp [Dict.keys, ha1]
      rw [h10] at h9
      exact Option.some.inj h9
    rw [← hyt]
    exact chainList_spec st.commits st.commits hchain.linked
      (fun kv hm => Dict.get?_of_mem_nodup hchain.nodup hm) y c hy

/-- Concrete reachable fixtures used by the chain witnesses. -/
theorem reachable_exS1 : Reachable exEnv exS1 :=
  Reachable.stepStage (initRepo exTree) ["."] exS1
    (exOk (stage exEnv (initRepo exTree) ["."])).2 (Reachable.init exTree) rfl

theorem reachable_exS2 : Reachable exEnv exS2 :=
  Reachable.stepCommit exS1 "first" "c1" "t1" exS2 reachable_exS1
    (by decide) (by decide) rfl

/-- Witness for C8 at the concrete one-commit repository. -/
theorem chain_integrity_witness :
    (exS2.commits.filter (fun kv => kv.2.next.isNone)).map Prod.fst
      = [exS2.head] ∧
    (Dict.keys exS2.commits).filter
      (fun cid => !(exS2.commits.any (fun kv => kv.2.next == some cid)))
      = [exS2.tail] ∧
    chainList exS2.commits exS2.tail exS2.commits.length = Dict.keys exS2.commits ∧
    (Dict.keys exS2.commits).Nodup ∧
    (Dict.keys exS2.commits).getLast? = some exS2.head :=
  chain_integrity exEnv exS2 reachable_exS2 (by decide)

/-- C10: in every reachable repository state with a non-empty head, for
every path recorded in the history ledger, `_get_hash_from_last_commit`
terminates — in fact the very first iteration of its backward loop finds
the path in the head commit's cumulative snapshot (snapshots are
cumulative) — and returns that snapshot's fingerprint entry paired with
the id of the commit where it was found (the head). -/
theorem backward_lookup_terminates (env : Env) (st : RepoState)
    (hr : Reachable env st) (hne : st.head ≠ "") (f : String)
    (hf : st.history.contains f = true) :
    ∀ fuel : Nat, 1 ≤ fuel →
      ∃ v, getHashFromLastCommit st f fuel = some (v, st.head) := by
  have hchain := (reachable_inv hr).chainCase hne
  rcases hchain.histSnap with ⟨snap, hsnap, hall⟩
  have hmem : f ∈ st.history := by simpa using hf
  rcases Option.isSome_iff_exists.mp (hall f hmem) with ⟨v, hv⟩
  intro fuel hfuel
  refine ⟨v, ?_⟩
  unfold getHashFromLastCommit
  rw [if_neg hne, hf]
  simp only [Bool.not_true, Bool.false_eq_true, if_false]
  cases fuel with
  | zero => exact absurd hfuel (by simp)
  | succ n =>
    unfold getHashAux
    rw [hsnap]
    simp only []
    rw [hv]

/-- Witness for C10 at the concrete one-commit repository with fuel 1:
the fingerprint of the committed file is found at the head itself. -/
theorem backward_lookup_terminates_witness :
    ∃ v, getHashFromLastCommit exS2 "./a" 1 = some (v, exS2.head) :=
  backward_lookup_terminates exEnv exS2 reachable_exS2 (by decide) "./a"
    (by decide) 1 (by decide)

/-- Witness for the amended C1 at the two-commit fixture. -/
theorem revert_merges_snapshot_witness :
    exC3.head = "c3" ∧
    Dict.get? exC3.commitSnap "c3"
      = some (Dict.update [("./a", some "h./ax"), ("./b", some "h./by")]
          [("./a", some "h./ax")]) ∧
    ("c1" ≠ "c3" →
      Dict.get? exC3.commitSnap "c1" = some [("./a", some "h./ax")] ∧
      Dict.get? exC3.commitBlobs "c1" = Dict.get? exC2.commitBlobs "c1") ∧
    ("c1" ≠ "c3" → "c1" ≠ exC2.head →
      Dict.get? exC3.commits "c1" = Dict.get? exC2.commits "c1") :=
  revert_merges_snapshot exEnv exC2 "c1" "c3" "t3" exC3
    [("./a", some "h./ax")] [("./a", some "h./ax"), ("./b", some "h./by")]
    rfl (by decide) rfl rfl (by decide)

/-!  Claim C4: the deletion-detection step of `stage`.  For a history
path absent from the working tree, the loop inserts a tombstone (and
deletes the positive entry) exactly when some input pattern is the
whole-tree marker or contains the path as a substring (Python's
`file in pattern`). -/

theorem strStartsWith_bang (x : String) : strStartsWith ("!" ++ x) "!" = true := by
  unfold strStartsWith
  rw [String.data_append]
  have h : "!".data = ['!'] := rfl
  rw [h]
  simp [List.isPrefixOf]

theorem bang_append_inj {g f : String} (h : "!" ++ g = "!" ++ f) : g = f := by
  obtain ⟨gl⟩ := g
  obtain ⟨fl⟩ := f
  have h2 : '!' :: gl = '!' :: fl := congrArg String.data h
  have h3 : gl = fl := (List.cons.inj h2).2
  rw [h3]

theorem nobang_ne_bang {g x : String} (hg : strStartsWith g "!" = false) :
    g ≠ "!" ++ x := by
  intro he
  rw [he, strStartsWith_bang] at hg
  exact Bool.noConfusion hg

theorem removedStep_cons (pat : String) (rest : List String) (g : String)
    (acc : Dict (Option String) × Dict (Option String)) :
    removedStep (pat :: rest) g acc
      = removedStep rest g
          (if pat = "." || isSubstring g pat then
            (Dict.insert (Dict.erase acc.1 g) ("!" ++ g) none,
             Dict.insert acc.2 g none)
          else acc) := rfl

theorem removedLoop_cons (patterns : List String) (g : String)
    (rest : List String) (acc : Dict (Option String) × Dict (Option String)) :
    removedLoop patterns (g :: rest) acc
      = removedLoop patterns rest (removedStep patterns g acc) := rfl

theorem removedStep_preserves (patterns : List String) (g f : String)
    (hg : strStartsWith g "!" = false) (hf : strStartsWith f "!" = false) :
    ∀ (acc : Dict (Option String) × Dict (Option String)),
    Dict.get? acc.1 ("!" ++ f) = some none →
    Dict.get? acc.1 f = none →
    Dict.get? (removedStep patterns g acc).1 ("!" ++ f) = some none ∧
    Dict.get? (removedStep patterns g acc).1 f = none := by
  induction patterns with
  | nil => intro acc h1 h2; exact ⟨h1, h2⟩
  | cons pat rest ih =>
    intro acc h1 h2
    rw [removedStep_cons]
    by_cases hc : (decide (pat = ".") || isSubstring g pat) = true
    · rw [if_pos hc]
      apply ih
      · by_cases heq : ("!" ++ g) = ("!" ++ f)
        · rw [heq]
          exact Dict.get?_insert_self _ ("!" ++ f) none
        · rw [Dict.get?_insert_ne _ none heq]
          rw [Dict.get?_erase_ne _ (nobang_ne_bang hg)]
          exact h1
      · rw [Dict.get?_insert_ne _ none (fun he => nobang_ne_bang hf he.symm)]
        by_cases hgf : g = f
        · rw [hgf]
          exact Dict.get?_erase_self acc.1 f
        · rw [Dict.get?_erase_ne _ hgf]
          exact h2
    · rw [if_neg hc]
      exact ih acc h1 h2

theorem removedStep_establishes (f : String)
    (hf : strStartsWith f "!" = false) :
    ∀ (patterns : List String),
    (∃ pat ∈ patterns, pat = "." ∨ isSubstring f pat = true) →
    ∀ (acc : Dict (Option String) × Dict (Option String)),
    Dict.get? (removedStep patterns f acc).1 ("!" ++ f) = some none ∧
    Dict.get? (removedStep patterns f acc).1 f = none := by
  intro patterns
  induction patterns with
  | nil =>
    intro htgt acc
    rcases htgt with ⟨pat, hp, _⟩
    simp at hp
  | cons pat rest ih =>
    intro htgt acc
    rw [removedStep_cons]
    by_cases hc : (decide (pat = ".") || isSubstring f pat) = true
    · rw [if_pos hc]
      refine removedStep_preserves rest f f hf hf _
        (Dict.get?_insert_self _ _ none) ?_
      rw [Dict.get?_insert_ne _ none (fun he => nobang_ne_bang hf he.symm)]
      exact Dict.get?_erase_self acc.1 f
    · rw [if_neg hc]
      apply ih ?_ acc
      rcases htgt with ⟨pat2, hp2, hm2⟩
      rcases List.mem_cons.mp hp2 with he | he
      · exfalso
        apply hc
        rw [he] at hm2
        rcases hm2 with hm3 | hm3
        · rw [hm3]
          rfl
        · rw [hm3]
          simp
      · exact ⟨pat2, he, hm2⟩

theorem removedStep_bang_invariant (g f : String)
    (hg : strStartsWith g "!" = false) :
    ∀ (patterns : List String),
    (¬ ∃ pat ∈ patterns, pat = "." ∨ isSubstring f pat = true) →
    ∀ (acc : Dict (Option String) × Dict (Option String)),
    Dict.get? (removedStep patterns g acc).1 ("!" ++ f)
      = Dict.get? acc.1 ("!" ++ f) := by
  intro patterns
  induction patterns with
  | nil => intro _ acc; rfl
  | cons pat rest ih =>
    intro hnt acc
    have hnt2 : ¬ ∃ pat ∈ rest, pat = "." ∨ isSubstring f pat = true := by
      intro ⟨p2, hp2, hm2⟩
      exact hnt ⟨p2, List.mem_cons_of_mem pat hp2, hm2⟩
    rw [removedStep_cons]
    by_cases hc : (decide (pat = ".") || isSubstring g pat) = true
    · by_cases hgf : g = f
      · exfalso
        apply hnt
        refine ⟨pat, List.mem_cons_self pat rest, ?_⟩
        have hc2 : pat = "." ∨ isSubstring g pat = true := by
          rcases Bool.or_eq_true _ _ ▸ hc with hm3 | hm3
          · exact Or.inl (of_decide_eq_true hm3)
          · exact Or.inr hm3
        rw [hgf] at hc2
        exact hc2
      · rw [if_pos hc]
        rw [ih hnt2 _]
        show Dict.get? (Dict.insert (Dict.erase acc.1 g) ("!" ++ g) none)
          ("!" ++ f) = _
        rw [Dict.get?_insert_ne _ none (fun he => hgf (bang_append_inj he))]
        exact Dict.get?_erase_ne _ (nobang_ne_bang hg)
    · rw [if_neg hc]
      exact ih hnt2 acc

theorem removedLoop_preserves (patterns : List String) (f : String)
    (hf : strStartsWith f "!" = false) :
    ∀ (removed : List String) (acc : Dict (Option String) × Dict (Option String)),
    (∀ g ∈ removed, strStartsWith g "!" = false) →
    Dict.get? acc.1 ("!" ++ f) = some none →
    Dict.get? acc.1 f = none →
    Dict.get? (removedLoop patterns removed acc).1 ("!" ++ f) = some none ∧
    Dict.get? (removedLoop patterns removed acc).1 f = none := by
  intro removed
  induction removed with
  | nil => intro acc _ h1 h2; exact ⟨h1, h2⟩
  | cons g rest ih =>
    intro acc hnb h1 h2
    rw [removedLoop_cons]
    rcases removedStep_preserves patterns g f
      (hnb g (List.mem_cons_self g rest)) hf acc h1 h2 with ⟨h3, h4⟩
    exact ih _ (fun g2 hg2 => hnb g2 (List.mem_cons_of_mem g hg2)) h3 h4

theorem removedLoop_establishes (patterns : List String) (f : String)
    (hf : strStartsWith f "!" = false)
    (htgt : ∃ pat ∈ patterns, pat = "." ∨ isSubstring f pat = true) :
    ∀ (removed : List String) (acc : Dict (Option String) × Dict (Option String)),
    f ∈ removed →
    (∀ g ∈ removed, strStartsWith g "!" = false) →
    Dict.get? (removedLoop patterns removed acc).1 ("!" ++ f) = some none ∧
    Dict.get? (removedLoop patterns removed acc).1 f = none := by
  intro removed
  induction removed with
  | nil => intro acc hmem; simp at hmem
  | cons g rest ih =>
    intro acc hmem hnb
    rw [removedLoop_cons]
    rcases List.mem_cons.mp hmem with he | he
    · rw [← he]
      rcases removedStep_establishes f hf patterns htgt acc with ⟨h3, h4⟩
      exact removedLoop_preserves patterns f hf rest _
        (fun g2 hg2 => hnb g2 (List.mem_cons_of_mem g hg2)) h3 h4
    · exact ih _ he (fun g2 hg2 => hnb g2 (List.mem_cons_of_mem g hg2))

theorem removedLoop_bang_invariant (patterns : List String) (f : String)
    (hnt : ¬ ∃ pat ∈ patterns, pat = "." ∨ isSubstring f pat = true) :
    ∀ (removed : List String) (acc : Dict (Option String) × Dict (Option String)),
    (∀ g ∈ removed, strStartsWith g "!" = false) →
    Dict.get? (removedLoop patterns removed acc).1 ("!" ++ f)
      = Dict.get? acc.1 ("!" ++ f) := by
  intro removed
  induction removed with
  | nil => intro acc _; rfl
  | cons g rest ih =>
    intro acc hnb
    rw [removedLoop_cons]
    rw [ih _ (fun g2 hg2 => hnb g2 (List.mem_cons_of_mem g hg2))]
    exact removedStep_bang_invariant g f
      (hnb g (List.mem_cons_self g rest)) patterns hnt acc

/-- The core of C4, over the deletion-detection loop itself. -/
theorem removedLoop_tombstone_iff (patterns : List String)
    (removed : List String) (merged ns : Dict (Option String)) (f : String)
    (hmem : f ∈ removed)
    (hf : strStartsWith f "!" = false)
    (hnb : ∀ g ∈ removed, strStartsWith g "!" = false)
    (hbang : Dict.get? merged ("!" ++ f) = none) :
    (Dict.get? (removedLoop patterns removed (merged, ns)).1 ("!" ++ f)
        = some none ∧
     Dict.get? (removedLoop patterns removed (merged, ns)).1 f = none)
      ↔ (∃ pat ∈ patterns, pat = "." ∨ isSubstring f pat = true) := by
  constructor
  · intro hconj
    by_cases htgt : ∃ pat ∈ patterns, pat = "." ∨ isSubstring f pat = true
    · exact htgt
    · exfalso
      have h5 := removedLoop_bang_invariant patterns f htgt removed (merged, ns) hnb
      rw [h5] at hconj
      rw [hbang] at hconj
      exact Option.noConfusion hconj.1
  · intro htgt
    exact removedLoop_establishes patterns f hf htgt removed (merged, ns) hmem hnb

theorem listDir_fold_contains (env : Env) (wt : Dict String) :
    ∀ (ps : List String) (acc : Dict (Option String)),
    (∀ q, Dict.contains acc q = true → Dict.contains wt q = true) →
    ∀ p, Dict.contains (ps.foldl (fun st p =>
      if isIgnore env p then st
      else
        match hashFile env wt p with
        | some h => Dict.insert st p (some h)
        | none => st) acc) p = true → Dict.contains wt p = true := by
  intro ps
  induction ps with
  | nil => intro acc hacc p hp; exact hacc p hp
  | cons q rest ih =>
    intro acc hacc p hp
    rw [List.foldl_cons] at hp
    refine ih _ ?_ p hp
    intro r hr
    by_cases hig : isIgnore env q = true
    · rw [if_pos hig] at hr
      exact hacc r hr
    · rw [if_neg hig] at hr
      cases hh : hashFile env wt q with
      | none =>
        rw [hh] at hr
        exact hacc r hr
      | some hv =>
        rw [hh] at hr
        by_cases hqr : q = r
        · unfold hashFile at hh
          rcases Option.map_eq_some'.mp hh with ⟨content, hc, _⟩
          rw [← hqr, Dict.contains_eq_true_iff]
          exact ⟨content, hc⟩
        · rw [Dict.contains, Dict.get?_insert_ne acc _ hqr] at hr
          exact hacc r hr

theorem listDir_not_contains {env : Env} {wt : Dict String}
    {patterns : List String} {k : String}
    (h : Dict.contains wt k = false) :
    Dict.get? (listDir env wt patterns) k = none := by
  cases hg : Dict.get? (listDir env wt patterns) k with
  | none => rfl
  | some v =>
    exfalso
    have hc : Dict.contains (listDir env wt patterns) k = true := by
      rw [Dict.contains, hg]
      rfl
    have := listDir_fold_contains env wt (findMatchingFiles env wt patterns) []
      (by intro q hq; exact absurd hq (by simp [Dict.contains, Dict.get?])) k hc
    rw [h] at this
    exact Bool.noConfusion this

theorem dropLoop_none :
    ∀ (es : List (String × Option String)) (ns : Dict (Option String))
      (k : String),
    Dict.get? ns k = none → Dict.get? (dropLoop es ns) k = none := by
  intro es
  induction es with
  | nil => intro ns k h; exact h
  | cons kv rest ih =>
    intro ns k h
    show Dict.get? (dropLoop rest _) k = none
    apply ih
    cases hg : Dict.get? ns kv.1 with
    | none => exact h
    | some v =>
      simp only []
      by_cases hv : kv.2 = v
      · rw [if_pos hv]
        by_cases hk : kv.1 = k
        · rw [← hk]
          exact Dict.get?_erase_self ns kv.1
        · rw [Dict.get?_erase_ne ns hk]
          exact h
      · rw [if_neg hv]
        exact h

theorem get?_update_not_mem {β : Type} :
    ∀ (o d : Dict β) (k : String), k ∉ Dict.keys o →
    Dict.get? (Dict.update d o) k = Dict.get? d k := by
  intro o
  induction o with
  | nil => intro d k _; rfl
  | cons kv rest ih =>
    intro d k hk
    have hk1 : kv.1 ≠ k := by
      intro he
      exact hk (he ▸ List.mem_cons_self kv.1 (Dict.keys rest))
    have hk2 : k ∉ Dict.keys rest :=
      fun hm => hk (List.mem_cons_of_mem kv.1 hm)
    show Dict.get? (Dict.update (Dict.insert d kv.1 kv.2) rest) k = _
    rw [ih _ k hk2]
    exact Dict.get?_insert_ne d kv.2 hk1

theorem merged_bang_none (env : Env) (st : RepoState) (paths2 : List String)
    (f : String)
    (hpre : Dict.get? st.index ("!" ++ f) = none)
    (hwt : Dict.contains st.worktree ("!" ++ f) = false) :
    Dict.get? (Dict.update st.index
      (dropLoop st.index (listDir env st.worktree paths2))) ("!" ++ f) = none := by
  have h1 : Dict.get? (listDir env st.worktree paths2) ("!" ++ f) = none :=
    listDir_not_contains hwt
  have h2 : Dict.get? (dropLoop st.index (listDir env st.worktree paths2))
      ("!" ++ f) = none := dropLoop_none st.index _ _ h1
  have h3 : ("!" ++ f) ∉ Dict.keys
      (dropLoop st.index (listDir env st.worktree paths2)) := by
    intro hm
    have := Dict.get?_isSome_of_mem_keys hm
    rw [h2] at this
    exact Bool.noConfusion this
  rw [get?_update_not_mem _ _ _ h3]
  exact hpre

/-- C4: during `stage(patterns)`, for a history path absent from the
current working tree (with no tombstone for it already persisted), a
tombstone entry ends up in the index — and the positive entry for the
path is gone — if and only if some input pattern equals the whole-tree
marker or contains the path textually (Python's `file in pattern`
substring test). -/
theorem stage_tombstone_iff (env : Env) (st : RepoState)
    (patterns : List String) (st2 : RepoState) (ret : Dict (Option String))
    (f : String)
    (h : stage env st patterns = .ok (st2, ret))
    (hhist : f ∈ st.history)
    (habsent : Dict.contains st.worktree f = false)
    (hnb : strStartsWith f "!" = false)
    (hpre : Dict.get? st.index ("!" ++ f) = none)
    (hwt : Dict.contains st.worktree ("!" ++ f) = false)
    (hhistnb : ∀ g ∈ st.history, strStartsWith g "!" = false) :
    (Dict.get? st2.index ("!" ++ f) = some none ∧
     Dict.get? st2.index f = none)
      ↔ (∃ pat ∈ patterns, pat = "." ∨ isSubstring f pat = true) := by
  have hremoved : f ∈ findRemovedFiles env st := by
    unfold findRemovedFiles
    apply List.mem_filter.mpr
    refine ⟨hhist, ?_⟩
    cases hc : Dict.contains (listDir env st.worktree ["."]) f with
    | false => rfl
    | true =>
      exfalso
      have h9 := listDir_fold_contains env st.worktree
        (findMatchingFiles env st.worktree ["."]) []
        (by intro q hq; exact absurd hq (by simp [Dict.contains, Dict.get?])) f hc
      rw [habsent] at h9
      exact Bool.noConfusion h9
  have hrnb : ∀ g ∈ findRemovedFiles env st, strStartsWith g "!" = false := by
    intro g hg
    exact hhistnb g (List.mem_filter.mp hg).1
  unfold stage at h
  repeat' first
    | split at h
    | simp only [] at h
  all_goals first
    | exact Except.noConfusion h
    | (injection h with h2
       simp only [Prod.mk.injEq] at h2
       rw [← h2.1]
       exact removedLoop_tombstone_iff patterns (findRemovedFiles env st) _ _ f
         hremoved hnb hrnb (merged_bang_none env st _ f hpre hwt))

/-- Witness for C4: in the tombstone fixture (committed `./a` and `./b`,
`./b` deleted from disk), staging with the whole-tree marker inserts the
tombstone for `./b`; the equivalence is discharged in the targeted
direction. -/
theorem stage_tombstone_iff_witness :
    (Dict.get? exS3.index ("!" ++ "./b") = some none ∧
     Dict.get? exS3.index "./b" = none)
      ↔ (∃ pat ∈ ["."], pat = "." ∨ isSubstring "./b" pat = true) :=
  stage_tombstone_iff exEnv exDel ["."] exS3 (exOk (stage exEnv exDel ["."])).2
    "./b" rfl (by decide) (by decide) (by decide) (by decide) (by decide)
    (by decide)

theorem bool_not_true {b : Bool} (h : (!b) = true) : b = false := by
  cases b
  · rfl
  · exact Bool.noConfusion h

theorem matchesInput_not_ignore {env : Env} {p pat : String}
    (h : matchesInput env p pat = true) : isIgnore env p = false := by
  unfold matchesInput at h
  simp only [] at h
  rw [Bool.and_eq_true] at h
  exact bool_not_true h.2

theorem matchesInput_dot {env : Env} {p : String}
    (hpre : strStartsWith p "./" = true) (hig : isIgnore env p = false) :
    matchesInput env p "." = true := by
  unfold matchesInput
  simp only []
  have hn : normalizePattern "." = "." := rfl
  rw [hn]
  have hr : rstripSlash "." ++ "/" = "./" := rfl
  rw [hr, hpre, hig]
  simp

theorem dotslash_ne_bang {q : String} (hq : strStartsWith q "./" = true)
    (f : String) : "!" ++ f ≠ q := by
  intro he
  rw [← he] at hq
  unfold strStartsWith at hq
  rw [String.data_append] at hq
  have h1 : "!".data = ['!'] := rfl
  have h2 : "./".data = ['.', '/'] := rfl
  rw [h1, h2] at hq
  simp only [List.isPrefixOf] at hq
  rw [(by decide : ('.' == '!') = false)] at hq
  simp at hq

theorem mem_matchFold (env : Env) (f : String) :
    ∀ (ps : List String) (acc : List String) (x : String),
    (x ∈ ps.foldl (fun acc pat =>
        if matchesInput env f pat then acc ++ [f] else acc) acc ↔
      x ∈ acc ∨ (x = f ∧ ∃ pat ∈ ps, matchesInput env f pat = true)) := by
  intro ps
  induction ps with
  | nil =>
    intro acc x
    simp
  | cons p rest ih =>
    intro acc x
    rw [List.foldl_cons]
    by_cases hc : matchesInput env f p = true
    · rw [if_pos hc, ih]
      constructor
      · rintro (h | ⟨h1, pat, h2, h3⟩)
        · rcases List.mem_append.mp h with h4 | h4
          · exact Or.inl h4
          · exact Or.inr ⟨List.mem_singleton.mp h4, p, List.mem_cons_self p rest, hc⟩
        · exact Or.inr ⟨h1, pat, List.mem_cons_of_mem p h2, h3⟩
      · rintro (h | ⟨h1, pat, h2, h3⟩)
        · exact Or.inl (List.mem_append.mpr (Or.inl h))
        · rcases List.mem_cons.mp h2 with he | h4
          · exact Or.inl (List.mem_append.mpr (Or.inr (List.mem_singleton.mpr h1)))
          · exact Or.inr ⟨h1, pat, h4, h3⟩
    · rw [if_neg hc, ih]
      constructor
      · rintro (h | ⟨h1, pat, h2, h3⟩)
        · exact Or.inl h
        · exact Or.inr ⟨h1, pat, List.mem_cons_of_mem p h2, h3⟩
      · rintro (h | ⟨h1, pat, h2, h3⟩)
        · exact Or.inl h
        · rcases List.mem_cons.mp h2 with he | h4
          · rw [he] at h3
            exact absurd h3 hc
          · exact Or.inr ⟨h1, pat, h4, h3⟩

theorem mem_findMatchingFiles_iff (env : Env) (wt : Dict String)
    (ps : List String) (p : String) :
    p ∈ findMatchingFiles env wt ps ↔
      Dict.contains wt p = true ∧ ∃ pat ∈ ps, matchesInput env p pat = true := by
  unfold findMatchingFiles
  rw [List.mem_flatten]
  constructor
  · rintro ⟨l, hl, hp⟩
    rcases List.mem_map.mp hl with ⟨kv, hkv, hfl⟩
    rw [← hfl, mem_matchFold] at hp
    rcases hp with h | ⟨he, pat, hpat, hm⟩
    · exact absurd h (List.not_mem_nil p)
    · subst he
      exact ⟨Dict.get?_isSome_of_mem hkv, pat, hpat, hm⟩
  · rintro ⟨hcont, pat, hpat, hm⟩
    rcases Dict.contains_eq_true_iff.mp hcont with ⟨v, hv⟩
    have hkv : (p, v) ∈ wt := Dict.mem_of_get? hv
    refine ⟨ps.foldl (fun acc pat =>
        if matchesInput env p pat then acc ++ [p] else acc) [], ?_, ?_⟩
    · exact List.mem_map.mpr ⟨(p, v), hkv, rfl⟩
    · rw [mem_matchFold]
      exact Or.inr ⟨rfl, pat, hpat, hm⟩

theorem mem_of_mem_erase {β : Type} {k : String} :
    ∀ {d : Dict β} {kv : String × β}, kv ∈ Dict.erase d k → kv ∈ d := by
  intro d
  induction d with
  | nil => intro kv h; exact absurd h (List.not_mem_nil kv)
  | cons a rest ih =>
    intro kv h
    by_cases ha : a.1 = k
    · rw [show Dict.erase (a :: rest) k = Dict.erase rest k from by
        simp [Dict.erase, ha]] at h
      exact List.mem_cons_of_mem a (ih h)
    · rw [show Dict.erase (a :: rest) k = a :: Dict.erase rest k from by
        simp [Dict.erase, ha]] at h
      rcases List.mem_cons.mp h with he | hm
      · exact he ▸ List.mem_cons_self a rest
      · exact List.mem_cons_of_mem a (ih hm)

theorem not_mem_erase_self {β : Type} {k : String} :
    ∀ {d : Dict β} {kv : String × β}, kv.1 = k → kv ∉ Dict.erase d k := by
  intro d
  induction d with
  | nil => intro kv _ h; exact List.not_mem_nil kv h
  | cons a rest ih =>
    intro kv hk h
    by_cases ha : a.1 = k
    · rw [show Dict.erase (a :: rest) k = Dict.erase rest k from by
        simp [Dict.erase, ha]] at h
      exact ih hk h
    · rw [show Dict.erase (a :: rest) k = a :: Dict.erase rest k from by
        simp [Dict.erase, ha]] at h
      rcases List.mem_cons.mp h with he | hm
      · apply ha
        rw [← he]
        exact hk
      · exact ih hk hm

theorem nodup_keys_update {β : Type} :
    ∀ (o d : Dict β), (Dict.keys d).Nodup → (Dict.keys (Dict.update d o)).Nodup := by
  intro o
  induction o with
  | nil => intro d h; exact h
  | cons kv rest ih =>
    intro d h
    show (Dict.keys (Dict.update (Dict.insert d kv.1 kv.2) rest)).Nodup
    exact ih _ (Dict.nodup_keys_insert kv.2 h)

theorem listDir_fold_get? (env : Env) (wt : Dict String) :
    ∀ (ps : List String) (acc : Dict (Option String)),
    (∀ q w, Dict.get? acc q = some w →
      ∃ c, Dict.get? wt q = some c ∧ w = some (env.hashFn q c)) →
    ∀ p v, Dict.get? (ps.foldl (fun st p =>
      if isIgnore env p then st
      else
        match hashFile env wt p with
        | some h => Dict.insert st p (some h)
        | none => st) acc) p = some v →
      ∃ c, Dict.get? wt p = some c ∧ v = some (env.hashFn p c) := by
  intro ps
  induction ps with
  | nil => intro acc hacc p v h; exact hacc p v h
  | cons q rest ih =>
    intro acc hacc p v h
    rw [List.foldl_cons] at h
    refine ih _ ?_ p v h
    intro r w hr
    by_cases hig : isIgnore env q = true
    · rw [if_pos hig] at hr
      exact hacc r w hr
    · rw [if_neg hig] at hr
      cases hh : hashFile env wt q with
      | none =>
        rw [hh] at hr
        exact hacc r w hr
      | some hv =>
        rw [hh] at hr
        by_cases hqr : q = r
        · subst hqr
          rw [Dict.get?_insert_self] at hr
          unfold hashFile at hh
          rcases Option.map_eq_some'.mp hh with ⟨c, hc, he⟩
          injection hr with hr2
          exact ⟨c, hc, by rw [← hr2, he]⟩
        · rw [Dict.get?_insert_ne acc _ hqr] at hr
          exact hacc r w hr

theorem listDir_get?_some {env : Env} {wt : Dict String} {ps : List String}
    {p : String} {v : Option String}
    (h : Dict.get? (listDir env wt ps) p = some v) :
    ∃ c, Dict.get? wt p = some c ∧ v = some (env.hashFn p c) := by
  unfold listDir at h
  refine listDir_fold_get? env wt _ [] ?_ p v h
  intro q w hq
  exact Option.noConfusion hq

theorem listDir_fold_mem (env : Env) (wt : Dict String) :
    ∀ (ps : List String) (acc : Dict (Option String)) (p : String) (v : Option String),
    Dict.get? (ps.foldl (fun st p =>
      if isIgnore env p then st
      else
        match hashFile env wt p with
        | some h => Dict.insert st p (some h)
        | none => st) acc) p = some v →
    Dict.get? acc p = some v ∨ p ∈ ps := by
  intro ps
  induction ps with
  | nil => intro acc p v h; exact Or.inl h
  | cons q rest ih =>
    intro acc p v h
    rw [List.foldl_cons] at h
    rcases ih _ p v h with h1 | h1
    · by_cases hig : isIgnore env q = true
      · rw [if_pos hig] at h1
        exact Or.inl h1
      · rw [if_neg hig] at h1
        cases hh : hashFile env wt q with
        | none =>
          rw [hh] at h1
          exact Or.inl h1
        | some hv =>
          rw [hh] at h1
          simp only [] at h1
          by_cases hqp : q = p
          · exact Or.inr (List.mem_cons.mpr (Or.inl hqp.symm))
          · rw [Dict.get?_insert_ne acc _ hqp] at h1
            exact Or.inl h1
    · exact Or.inr (List.mem_cons_of_mem q h1)

theorem listDir_mem {env : Env} {wt : Dict String} {ps : List String}
    {p : String} {v : Option String}
    (h : Dict.get? (listDir env wt ps) p = some v) :
    p ∈ findMatchingFiles env wt ps := by
  unfold listDir at h
  rcases listDir_fold_mem env wt (findMatchingFiles env wt ps) [] p v h with h1 | h1
  · exact Option.noConfusion h1
  · exact h1

theorem listDir_fold_complete (env : Env) (wt : Dict String) (p c : String)
    (hc : Dict.get? wt p = some c) :
    ∀ (ps : List String) (acc : Dict (Option String)),
    (p ∈ ps ∨ Dict.get? acc p = some (some (env.hashFn p c))) →
    isIgnore env p = false →
    Dict.get? (ps.foldl (fun st q =>
      if isIgnore env q then st
      else
        match hashFile env wt q with
        | some h => Dict.insert st q (some h)
        | none => st) acc) p = some (some (env.hashFn p c)) := by
  intro ps
  induction ps with
  | nil =>
    intro acc hmem hig
    rcases hmem with h | h
    · exact absurd h (List.not_mem_nil p)
    · exact h
  | cons q rest ih =>
    intro acc hmem hig
    rw [List.foldl_cons]
    rcases hmem with hmem | hacc
    · rcases List.mem_cons.mp hmem with he | hmem2
      · subst he
        refine ih _ (Or.inr ?_) hig
        have hh : hashFile env wt p = some (env.hashFn p c) := by
          unfold hashFile
          rw [hc]
          rfl
        rw [if_neg (by rw [hig]; exact Bool.false_ne_true)]
        rw [hh]
        exact Dict.get?_insert_self acc p (some (env.hashFn p c))
      · exact ih _ (Or.inl hmem2) hig
    · refine ih _ (Or.inr ?_) hig
      by_cases hiq : isIgnore env q = true
      · rw [if_pos hiq]
        exact hacc
      · rw [if_neg hiq]
        cases hh : hashFile env wt q with
        | none => exact hacc
        | some hv =>
          by_cases hqp : q = p
          · rw [hqp] at hh ⊢
            unfold hashFile at hh
            rw [hc] at hh
            simp only [Option.map_some'] at hh
            injection hh with hh2
            rw [← hh2]
            exact Dict.get?_insert_self acc p (some (env.hashFn p c))
          · rw [Dict.get?_insert_ne acc _ hqp]
            exact hacc

theorem listDir_complete {env : Env} {wt : Dict String} {ps : List String}
    {p c : String}
    (hmem : p ∈ findMatchingFiles env wt ps)
    (hc : Dict.get? wt p = some c)
    (hig : isIgnore env p = false) :
    Dict.get? (listDir env wt ps) p = some (some (env.hashFn p c)) := by
  unfold listDir
  exact listDir_fold_complete env wt p c hc _ [] (Or.inl hmem) hig

theorem listDir_fold_nodup (env : Env) (wt : Dict String) :
    ∀ (ps : List String) (acc : Dict (Option String)),
    (Dict.keys acc).Nodup →
    (Dict.keys (ps.foldl (fun st p =>
      if isIgnore env p then st
      else
        match hashFile env wt p with
        | some h => Dict.insert st p (some h)
        | none => st) acc)).Nodup := by
  intro ps
  induction ps with
  | nil => intro acc h; exact h
  | cons q rest ih =>
    intro acc h
    rw [List.foldl_cons]
    apply ih
    by_cases hig : isIgnore env q = true
    · rw [if_pos hig]
      exact h
    · rw [if_neg hig]
      cases hh : hashFile env wt q with
      | none => exact h
      | some hv => exact Dict.nodup_keys_insert _ h

theorem listDir_nodup (env : Env) (wt : Dict String) (ps : List String) :
    (Dict.keys (listDir env wt ps)).Nodup := by
  unfold listDir
  exact listDir_fold_nodup env wt (findMatchingFiles env wt ps) [] List.nodup_nil

theorem not_mem_removed (env : Env) (st : RepoState) (q c : String)
    (hq : Dict.get? st.worktree q = some c)
    (hpre : strStartsWith q "./" = true)
    (hig : isIgnore env q = false) :
    q ∉ findRemovedFiles env st := by
  intro hmem
  have hmem2 := (List.mem_filter.mp hmem).2
  have h3 : Dict.contains (listDir env st.worktree ["."]) q = false :=
    bool_not_true hmem2
  rw [Dict.contains_eq_false_iff] at h3
  have h4 : Dict.get? (listDir env st.worktree ["."]) q
      = some (some (env.hashFn q c)) := by
    apply listDir_complete ?_ hq hig
    rw [mem_findMatchingFiles_iff]
    refine ⟨?_, ".", List.mem_cons_self "." [], matchesInput_dot hpre hig⟩
    rw [Dict.contains_eq_true_iff]
    exact ⟨c, hq⟩
  rw [h3] at h4
  exact Option.noConfusion h4

theorem dropLoop_cons (kv : String × Option String)
    (rest : List (String × Option String)) (ns : Dict (Option String)) :
    dropLoop (kv :: rest) ns
      = dropLoop rest
          (match Dict.get? ns kv.1 with
           | some v => if kv.2 = v then Dict.erase ns kv.1 else ns
           | none => ns) := rfl

theorem dropLoop_some :
    ∀ (es : List (String × Option String)) (ns : Dict (Option String))
      (k : String) (v : Option String),
    Dict.get? (dropLoop es ns) k = some v → Dict.get? ns k = some v := by
  intro es
  induction es with
  | nil => intro ns k v h; exact h
  | cons kv rest ih =>
    intro ns k v h
    rw [dropLoop_cons] at h
    have h2 := ih _ k v h
    cases hg : Dict.get? ns kv.1 with
    | none =>
      rw [hg] at h2
      exact h2
    | some w =>
      rw [hg] at h2
      simp only [] at h2
      by_cases hv : kv.2 = w
      · rw [if_pos hv] at h2
        by_cases hk : kv.1 = k
        · rw [← hk] at h2
          rw [Dict.get?_erase_self] at h2
          exact Option.noConfusion h2
        · rw [Dict.get?_erase_ne ns hk] at h2
          exact h2
      · rw [if_neg hv] at h2
        exact h2

theorem dropLoop_erased :
    ∀ (es : List (String × Option String)) (ns : Dict (Option String))
      (q : String) (v : Option String),
    Dict.get? ns q = some v → Dict.get? (dropLoop es ns) q = none →
    ∃ kv ∈ es, kv.1 = q ∧ kv.2 = v := by
  intro es
  induction es with
  | nil =>
    intro ns q v h1 h2
    have h3 : Dict.get? ns q = none := h2
    rw [h1] at h3
    exact Option.noConfusion h3
  | cons kv rest ih =>
    intro ns q v h1 h2
    rw [dropLoop_cons] at h2
    cases hg : Dict.get? ns kv.1 with
    | none =>
      rw [hg] at h2
      rcases ih ns q v h1 h2 with ⟨kv2, hk2, he⟩
      exact ⟨kv2, List.mem_cons_of_mem kv hk2, he⟩
    | some w =>
      rw [hg] at h2
      simp only [] at h2
      by_cases hv : kv.2 = w
      · rw [if_pos hv] at h2
        by_cases hk : kv.1 = q
        · have hwv : w = v := by
            rw [hk] at hg
            rw [h1] at hg
            exact (Option.some.inj hg).symm
          exact ⟨kv, List.mem_cons_self kv rest, hk, hv.trans hwv⟩
        · have h1a : Dict.get? (Dict.erase ns kv.1) q = some v := by
            rw [Dict.get?_erase_ne ns hk]
            exact h1
          rcases ih _ q v h1a h2 with ⟨kv2, hk2, he⟩
          exact ⟨kv2, List.mem_cons_of_mem kv hk2, he⟩
      · rw [if_neg hv] at h2
        rcases ih ns q v h1 h2 with ⟨kv2, hk2, he⟩
        exact ⟨kv2, List.mem_cons_of_mem kv hk2, he⟩

theorem dropLoop_nodup :
    ∀ (es : List (String × Option String)) (ns : Dict (Option String)),
    (Dict.keys ns).Nodup → (Dict.keys (dropLoop es ns)).Nodup := by
  intro es
  induction es with
  | nil => intro ns h; exact h
  | cons kv rest ih =>
    intro ns h
    rw [dropLoop_cons]
    apply ih
    cases hg : Dict.get? ns kv.1 with
    | none => exact h
    | some w =>
      simp only []
      by_cases hv : kv.2 = w
      · rw [if_pos hv]
        exact Dict.nodup_keys_erase kv.1 h
      · rw [if_neg hv]
        exact h

theorem dropLoop_empties :
    ∀ (es : List (String × Option String)) (ns : Dict (Option String)),
    (Dict.keys ns).Nodup → (∀ kv ∈ ns, kv ∈ es) → dropLoop es ns = [] := by
  intro es
  induction es with
  | nil =>
    intro ns _ hsub
    cases ns with
    | nil => rfl
    | cons kv rest =>
      exact absurd (hsub kv (List.mem_cons_self kv rest)) (List.not_mem_nil kv)
  | cons e rest ih =>
    intro ns hnd hsub
    rw [dropLoop_cons]
    cases hg : Dict.get? ns e.1 with
    | none =>
      apply ih ns hnd
      intro kv hkv
      rcases List.mem_cons.mp (hsub kv hkv) with he | hm
      · exfalso
        have h5 := Dict.get?_isSome_of_mem hkv
        rw [he, hg] at h5
        exact Bool.noConfusion h5
      · exact hm
    | some w =>
      simp only []
      by_cases hv : e.2 = w
      · rw [if_pos hv]
        apply ih _ (Dict.nodup_keys_erase e.1 hnd)
        intro kv hkv
        have hkv2 : kv ∈ ns := mem_of_mem_erase hkv
        rcases List.mem_cons.mp (hsub kv hkv2) with he | hm
        · exfalso
          exact not_mem_erase_self (by rw [he]) hkv
        · exact hm
      · rw [if_neg hv]
        apply ih ns hnd
        intro kv hkv
        rcases List.mem_cons.mp (hsub kv hkv) with he | hm
        · exfalso
          have h5 := Dict.get?_of_mem_nodup hnd (show (kv.1, kv.2) ∈ ns from hkv)
          rw [he] at h5
          rw [hg] at h5
          injection h5 with h6
          exact hv h6.symm
        · exact hm

theorem filterModified_sub {env : Env} {st : RepoState} {u : List String} :
    ∀ {l out : List String}, filterModified env st u l = .ok out →
    ∀ p ∈ out, p ∈ l := by
  intro l
  induction l with
  | nil =>
    intro out h p hp
    unfold filterModified at h
    injection h with h2
    rw [← h2] at hp
    exact absurd hp (List.not_mem_nil p)
  | cons q rest ih =>
    intro out h p hp
    unfold filterModified at h
    cases hm : isModified env st q with
    | error e =>
      rw [hm] at h
      exact Except.noConfusion h
    | ok m =>
      rw [hm] at h
      simp only [] at h
      cases hr : filterModified env st u rest with
      | error e =>
        rw [hr] at h
        exact Except.noConfusion h
      | ok tail =>
        rw [hr] at h
        simp only [] at h
        injection h with h2
        rw [← h2] at hp
        by_cases hc : (m || u.contains q) = true
        · rw [if_pos hc] at hp
          rcases List.mem_cons.mp hp with he | hm2
          · exact he ▸ List.mem_cons_self q rest
          · exact List.mem_cons_of_mem q (ih hr p hm2)
        · rw [if_neg hc] at hp
          exact List.mem_cons_of_mem q (ih hr p hp)

theorem filterModified_ok_all {env : Env} {st : RepoState} {u : List String} :
    ∀ {l out : List String}, filterModified env st u l = .ok out →
    ∀ p ∈ l, ∃ m, isModified env st p = .ok m := by
  intro l
  induction l with
  | nil => intro out _ p hp; exact absurd hp (List.not_mem_nil p)
  | cons q rest ih =>
    intro out h p hp
    unfold filterModified at h
    cases hm : isModified env st q with
    | error e =>
      rw [hm] at h
      exact Except.noConfusion h
    | ok mq =>
      rw [hm] at h
      simp only [] at h
      cases hr : filterModified env st u rest with
      | error e =>
        rw [hr] at h
        exact Except.noConfusion h
      | ok tail =>
        rcases List.mem_cons.mp hp with he | hm2
        · exact he ▸ ⟨mq, hm⟩
        · exact ih hr p hm2

theorem filterModified_reason {env : Env} {st : RepoState} {u : List String} :
    ∀ {l out : List String}, filterModified env st u l = .ok out →
    ∀ p ∈ out, ∃ m, isModified env st p = .ok m ∧ (m || u.contains p) = true := by
  intro l
  induction l with
  | nil =>
    intro out h p hp
    unfold filterModified at h
    injection h with h2
    rw [← h2] at hp
    exact absurd hp (List.not_mem_nil p)
  | cons q rest ih =>
    intro out h p hp
    unfold filterModified at h
    cases hq : isModified env st q with
    | error e =>
      rw [hq] at h
      exact Except.noConfusion h
    | ok mq =>
      rw [hq] at h
      simp only [] at h
      cases hr : filterModified env st u rest with
      | error e =>
        rw [hr] at h
        exact Except.noConfusion h
      | ok tail =>
        rw [hr] at h
        simp only [] at h
        injection h with h2
        rw [← h2] at hp
        by_cases hc : (mq || u.contains q) = true
        · rw [if_pos hc] at hp
          rcases List.mem_cons.mp hp with he | hm2
          · subst he
            exact ⟨mq, hq, hc⟩
          · exact ih hr p hm2
        · rw [if_neg hc] at hp
          exact ih hr p hp

theorem filterModified_keep {env : Env} {st : RepoState} {u : List String} :
    ∀ {l out : List String}, filterModified env st u l = .ok out →
    ∀ p ∈ l, ∀ m, isModified env st p = .ok m → (m || u.contains p) = true →
    p ∈ out := by
  intro l
  induction l with
  | nil => intro out _ p hp; exact absurd hp (List.not_mem_nil p)
  | cons q rest ih =>
    intro out h p hp m hm hc
    unfold filterModified at h
    cases hq : isModified env st q with
    | error e =>
      rw [hq] at h
      exact Except.noConfusion h
    | ok mq =>
      rw [hq] at h
      simp only [] at h
      cases hr : filterModified env st u rest with
      | error e =>
        rw [hr] at h
        exact Except.noConfusion h
      | ok tail =>
        rw [hr] at h
        simp only [] at h
        injection h with h2
        rw [← h2]
        rcases List.mem_cons.mp hp with he | hm2
        · subst he
          rw [hq] at hm
          injection hm with h3
          rw [if_pos (by rw [h3]; exact hc)]
          exact List.mem_cons_self p tail
        · by_cases hcq : (mq || u.contains q) = true
          · rw [if_pos hcq]
            exact List.mem_cons_of_mem q (ih hr p hm2 m hm hc)
          · rw [if_neg hcq]
            exact ih hr p hm2 m hm hc

theorem removedStep_fst_frame (g q : String)
    (hg : g ≠ q) (hbg : "!" ++ g ≠ q) :
    ∀ (patterns : List String)
      (acc : Dict (Option String) × Dict (Option String)),
    Dict.get? (removedStep patterns g acc).1 q = Dict.get? acc.1 q := by
  intro patterns
  induction patterns with
  | nil => intro acc; rfl
  | cons pat rest ih =>
    intro acc
    rw [removedStep_cons]
    by_cases hc : (decide (pat = ".") || isSubstring g pat) = true
    · rw [if_pos hc, ih]
      show Dict.get? (Dict.insert (Dict.erase acc.1 g) ("!" ++ g) none) q = _
      rw [Dict.get?_insert_ne _ none hbg]
      exact Dict.get?_erase_ne acc.1 hg
    · rw [if_neg hc]
      exact ih acc

theorem removedLoop_fst_frame (patterns : List String) (q : String) :
    ∀ (removed : List String)
      (acc : Dict (Option String) × Dict (Option String)),
    (∀ f ∈ removed, f ≠ q ∧ "!" ++ f ≠ q) →
    Dict.get? (removedLoop patterns removed acc).1 q = Dict.get? acc.1 q := by
  intro removed
  induction removed with
  | nil => intro acc _; rfl
  | cons g rest ih =>
    intro acc hne
    rw [removedLoop_cons]
    rw [ih _ (fun f hf => hne f (List.mem_cons_of_mem g hf))]
    exact removedStep_fst_frame g q (hne g (List.mem_cons_self g rest)).1
      (hne g (List.mem_cons_self g rest)).2 patterns acc

theorem removedStep_fst_id (f : String) :
    ∀ (patterns : List String)
      (acc : Dict (Option String) × Dict (Option String)),
    Dict.get? acc.1 f = none →
    Dict.get? acc.1 ("!" ++ f) = some none →
    (removedStep patterns f acc).1 = acc.1 := by
  intro patterns
  induction patterns with
  | nil => intro acc _ _; rfl
  | cons pat rest ih =>
    intro acc h1 h2
    rw [removedStep_cons]
    by_cases hc : (decide (pat = ".") || isSubstring f pat) = true
    · rw [if_pos hc]
      have he : Dict.erase acc.1 f = acc.1 :=
        Dict.erase_of_not_contains (Dict.contains_eq_false_iff.mpr h1)
      have hi : Dict.insert (Dict.erase acc.1 f) ("!" ++ f) none = acc.1 := by
        rw [he]
        exact Dict.insert_of_get?_eq h2
      refine (ih (Dict.insert (Dict.erase acc.1 f) ("!" ++ f) none,
          Dict.insert acc.2 f none) ?_ ?_).trans hi
      · rw [hi]
        exact h1
      · rw [hi]
        exact h2
    · rw [if_neg hc]
      exact ih acc h1 h2

theorem removedStep_id_of_untargeted (f : String) :
    ∀ (patterns : List String),
    (¬ ∃ pat ∈ patterns, pat = "." ∨ isSubstring f pat = true) →
    ∀ (acc : Dict (Option String) × Dict (Option String)),
    removedStep patterns f acc = acc := by
  intro patterns
  induction patterns with
  | nil => intro _ acc; rfl
  | cons pat rest ih =>
    intro hnt acc
    have hnt2 : ¬ ∃ pat ∈ rest, pat = "." ∨ isSubstring f pat = true := by
      intro ⟨p2, hp2, hm2⟩
      exact hnt ⟨p2, List.mem_cons_of_mem pat hp2, hm2⟩
    rw [removedStep_cons]
    by_cases hc : (decide (pat = ".") || isSubstring f pat) = true
    · exfalso
      apply hnt
      refine ⟨pat, List.mem_cons_self pat rest, ?_⟩
      rcases Bool.or_eq_true _ _ ▸ hc with h | h
      · exact Or.inl (of_decide_eq_true h)
      · exact Or.inr h
    · rw [if_neg hc]
      exact ih hnt2 acc

theorem removedLoop_fst_id (patterns : List String) :
    ∀ (removed : List String)
      (acc : Dict (Option String) × Dict (Option String)),
    (∀ f ∈ removed,
      (∃ pat ∈ patterns, pat = "." ∨ isSubstring f pat = true) →
      Dict.get? acc.1 f = none ∧ Dict.get? acc.1 ("!" ++ f) = some none) →
    (removedLoop patterns removed acc).1 = acc.1 := by
  intro removed
  induction removed with
  | nil => intro acc _; rfl
  | cons g rest ih =>
    intro acc hcond
    rw [removedLoop_cons]
    by_cases htgt : ∃ pat ∈ patterns, pat = "." ∨ isSubstring g pat = true
    · rcases hcond g (List.mem_cons_self g rest) htgt with ⟨h1, h2⟩
      have hstep : (removedStep patterns g acc).1 = acc.1 :=
        removedStep_fst_id g patterns acc h1 h2
      refine (ih (removedStep patterns g acc) ?_).trans hstep
      intro f hf htf
      rw [hstep]
      exact hcond f (List.mem_cons_of_mem g hf) htf
    · have hstep : removedStep patterns g acc = acc :=
        removedStep_id_of_untargeted g patterns htgt acc
      rw [hstep]
      refine ih acc ?_
      intro f hf htf
      exact hcond f (List.mem_cons_of_mem g hf) htf

theorem findUntrackedFiles_fields (env : Env) (st : RepoState)
    (i : Dict (Option String)) (b : Dict String) (l : List String) :
    findUntrackedFiles env { st with index := i, stageBlobs := b } l
      = l.filter (fun fp =>
          !(Dict.contains i fp) && !(st.history.contains fp) && !isIgnore env fp) :=
  rfl

theorem findRemovedFiles_fields (env : Env) (st : RepoState)
    (i : Dict (Option String)) (b : Dict String) :
    findRemovedFiles env { st with index := i, stageBlobs := b }
      = findRemovedFiles env st := rfl

theorem isModified_fields (env : Env) (st : RepoState) (i : Dict (Option String))
    (b : Dict String) (f : String) :
    isModified env { st with index := i, stageBlobs := b } f
      = (match hashFile env st.worktree f with
         | none => .error (.fileNotFound f)
         | some hv =>
           if Dict.contains i f
               && decide ((Dict.get? i f).join ≠ some hv) then .ok true
           else if st.history.contains f && !(Dict.contains i f) then
             match getHashFromLastCommit st f (st.commits.length + 1) with
             | none => .error .typeError
             | some (lastHash, _) =>
               if some hv ≠ lastHash then .ok true else .ok false
           else .ok false) := rfl

theorem stage_ok_pieces {env : Env} {st : RepoState} {patterns : List String}
    {st1 : RepoState} {r1 : Dict (Option String)}
    (h : stage env st patterns = .ok (st1, r1)) :
    ∃ paths2 blobs,
      (if st.head ≠ "" then
        filterModified env st
          (findUntrackedFiles env st (findMatchingFiles env st.worktree patterns))
          (findMatchingFiles env st.worktree patterns)
       else .ok (findMatchingFiles env st.worktree patterns)) = .ok paths2 ∧
      st1 = { st with
        index := (removedLoop patterns (findRemovedFiles env st)
          (Dict.update st.index (dropLoop st.index (listDir env st.worktree paths2)),
           dropLoop st.index (listDir env st.worktree paths2))).1,
        stageBlobs := blobs } := by
  unfold stage at h
  simp only [] at h
  cases hp : (if st.head ≠ "" then
        filterModified env st
          (findUntrackedFiles env st (findMatchingFiles env st.worktree patterns))
          (findMatchingFiles env st.worktree patterns)
       else Except.ok (findMatchingFiles env st.worktree patterns)) with
  | error e =>
    rw [hp] at h
    exact Except.noConfusion h
  | ok paths2 =>
    rw [hp] at h
    simp only [] at h
    cases hb : saveBlobsLoop st.worktree
        (Dict.update st.index (dropLoop st.index (listDir env st.worktree paths2)))
        st.stageBlobs with
    | error e =>
      rw [hb] at h
      exact Except.noConfusion h
    | ok blobs =>
      rw [hb] at h
      simp only [] at h
      injection h with h2
      simp only [Prod.mk.injEq] at h2
      exact ⟨paths2, blobs, rfl, h2.1.symm⟩

theorem stage_second_fixpoint (env : Env) (st : RepoState) (patterns : List String)
    (p1 p2 : List String) (F1 : Dict (Option String)) (b1 : Dict String)
    (hidx : (Dict.keys st.index).Nodup)
    (hwt : ∀ kv ∈ st.worktree, strStartsWith kv.1 "./" = true)
    (hhist : ∀ g ∈ st.history, strStartsWith g "!" = false)
    (hp1 : (if st.head ≠ "" then
        filterModified env st
          (findUntrackedFiles env st (findMatchingFiles env st.worktree patterns))
          (findMatchingFiles env st.worktree patterns)
       else .ok (findMatchingFiles env st.worktree patterns)) = .ok p1)
    (hF1 : (removedLoop patterns (findRemovedFiles env st)
        (Dict.update st.index (dropLoop st.index (listDir env st.worktree p1)),
         dropLoop st.index (listDir env st.worktree p1))).1 = F1)
    (hp2 : (if st.head ≠ "" then
        filterModified env { st with index := F1, stageBlobs := b1 }
          (findUntrackedFiles env { st with index := F1, stageBlobs := b1 }
            (findMatchingFiles env st.worktree patterns))
          (findMatchingFiles env st.worktree patterns)
       else .ok (findMatchingFiles env st.worktree patterns)) = .ok p2) :
    (removedLoop patterns (findRemovedFiles env st)
        (Dict.update F1 (dropLoop F1 (listDir env st.worktree p2)),
         dropLoop F1 (listDir env st.worktree p2))).1 = F1 := by
  have hwtP : ∀ q c, Dict.get? st.worktree q = some c →
      strStartsWith q "./" = true := by
    intro q c hq
    exact hwt (q, c) (Dict.mem_of_get? hq)
  have hremH : ∀ f ∈ findRemovedFiles env st, f ∈ st.history := by
    intro f hf
    exact (List.mem_filter.mp hf).1
  have hremNB : ∀ f ∈ findRemovedFiles env st, strStartsWith f "!" = false :=
    fun f hf => hhist f (hremH f hf)
  have hfne : ∀ q c, Dict.get? st.worktree q = some c → isIgnore env q = false →
      ∀ f ∈ findRemovedFiles env st, f ≠ q ∧ "!" ++ f ≠ q := by
    intro q c hq hig f hf
    refine ⟨?_, dotslash_ne_bang (hwtP q c hq) f⟩
    intro he
    exact not_mem_removed env st q c hq (hwtP q c hq) hig (he ▸ hf)
  have hframe : ∀ q c, Dict.get? st.worktree q = some c → isIgnore env q = false →
      Dict.get? F1 q = Dict.get? (Dict.update st.index
        (dropLoop st.index (listDir env st.worktree p1))) q := by
    intro q c hq hig
    rw [← hF1]
    exact removedLoop_fst_frame patterns q (findRemovedFiles env st) _
      (hfne q c hq hig)
  have hns1nd : (Dict.keys (dropLoop st.index (listDir env st.worktree p1))).Nodup :=
    dropLoop_nodup _ _ (listDir_nodup env st.worktree p1)
  have hmerge : ∀ q v, Dict.get? (listDir env st.worktree p1) q = some v →
      Dict.get? (Dict.update st.index
        (dropLoop st.index (listDir env st.worktree p1))) q = some v := by
    intro q v hq
    rw [Dict.get?_update st.index _ q hns1nd]
    cases hd : Dict.get? (dropLoop st.index (listDir env st.worktree p1)) q with
    | some w =>
      have hw := dropLoop_some st.index _ q w hd
      rw [hq] at hw
      injection hw with hw2
      subst hw2
      rfl
    | none =>
      rcases dropLoop_erased st.index _ q v hq hd with ⟨kv, hkv, hk1, hk2⟩
      have h6 : (q, v) ∈ st.index := by
        rw [← hk1, ← hk2]
        exact hkv
      exact Dict.get?_of_mem_nodup hidx h6
  have hP1 : ∀ x ∈ p2, x ∈ p1 := by
    by_cases hhead : st.head ≠ ""
    · rw [if_pos hhead] at hp1 hp2
      intro x hx
      have hxpaths : x ∈ findMatchingFiles env st.worktree patterns :=
        filterModified_sub hp2 x hx
      rcases (mem_findMatchingFiles_iff env st.worktree patterns x).mp hxpaths with
        ⟨hcx, patx, hpx, hmx⟩
      have higx : isIgnore env x = false := matchesInput_not_ignore hmx
      rcases Dict.contains_eq_true_iff.mp hcx with ⟨cx, hwx⟩
      have hfrx := hframe x cx hwx higx
      rcases filterModified_ok_all hp1 x hxpaths with ⟨m1, hm1⟩
      rcases filterModified_reason hp2 x hx with ⟨m2, hm2, hc2⟩
      apply filterModified_keep hp1 x hxpaths m1 hm1
      rcases Bool.or_eq_true _ _ ▸ hc2 with hm2t | hu2
      · subst hm2t
        have hhash : hashFile env st.worktree x = some (env.hashFn x cx) := by
          unfold hashFile
          rw [hwx]
          rfl
        rw [isModified_fields] at hm2
        rw [hhash] at hm2
        simp only [] at hm2
        cases hns1x : Dict.get? (dropLoop st.index
            (listDir env st.worktree p1)) x with
        | some w =>
          exfalso
          have hw0 : Dict.get? (listDir env st.worktree p1) x = some w :=
            dropLoop_some _ _ x w hns1x
          rcases listDir_get?_some hw0 with ⟨c2, hc2w, hw2⟩
          rw [hwx] at hc2w
          injection hc2w with hc2e
          have hMx : Dict.get? (Dict.update st.index (dropLoop st.index
              (listDir env st.worktree p1))) x = some w := by
            rw [Dict.get?_update st.index _ x hns1nd, hns1x]
            rfl
          have hF1x : Dict.get? F1 x = some (some (env.hashFn x cx)) := by
            rw [hfrx, hMx, hw2, ← hc2e]
          have hcF1 : Dict.contains F1 x = true := by
            rw [Dict.contains, hF1x]
            rfl
          have hjoin : (Dict.get? F1 x).join = some (env.hashFn x cx) := by
            rw [hF1x]
            rfl
          rw [hcF1, hjoin] at hm2
          simp at hm2
        | none =>
          have hMI : Dict.get? (Dict.update st.index (dropLoop st.index
              (listDir env st.worktree p1))) x = Dict.get? st.index x := by
            rw [Dict.get?_update st.index _ x hns1nd, hns1x]
            rfl
          have hFI : Dict.get? F1 x = Dict.get? st.index x := by
            rw [hfrx, hMI]
          have hcFI : Dict.contains F1 x = Dict.contains st.index x := by
            unfold Dict.contains
            rw [hFI]
          have hm1t : isModified env st x = Except.ok true := by
            unfold isModified
            rw [hhash]
            simp only []
            rw [hcFI, hFI] at hm2
            exact hm2
          rw [hm1t] at hm1
          injection hm1 with hm1e
          rw [← hm1e]
          rfl
      · have hu2m : x ∈ findUntrackedFiles env
            { st with index := F1, stageBlobs := b1 }
            (findMatchingFiles env st.worktree patterns) := by
          simpa using hu2
        rw [findUntrackedFiles_fields] at hu2m
        rw [List.mem_filter] at hu2m
        obtain ⟨hxp, hcond⟩ := hu2m
        simp only [Bool.and_eq_true] at hcond
        obtain ⟨⟨hA, hB⟩, hC⟩ := hcond
        have hF1x : Dict.contains F1 x = false := bool_not_true hA
        have hHx : st.history.contains x = false := bool_not_true hB
        have hIx : Dict.contains st.index x = false := by
          cases hcI : Dict.contains st.index x with
          | false => rfl
          | true =>
            exfalso
            rcases Dict.contains_eq_true_iff.mp hcI with ⟨w, hw⟩
            have hMx : (Dict.get? (Dict.update st.index (dropLoop st.index
                (listDir env st.worktree p1))) x).isSome = true := by
              apply Dict.get?_update_isSome_mono
              rw [hw]
              rfl
            rw [← hfrx] at hMx
            rw [Dict.contains_eq_false_iff] at hF1x
            rw [hF1x] at hMx
            exact Bool.noConfusion hMx
        have hux : (findUntrackedFiles env st
            (findMatchingFiles env st.worktree patterns)).contains x = true := by
          have hm5 : x ∈ findUntrackedFiles env st
              (findMatchingFiles env st.worktree patterns) := by
            unfold findUntrackedFiles
            rw [List.mem_filter]
            refine ⟨hxp, ?_⟩
            have hHm : x ∉ st.history := by
              simpa using hHx
            simp [hIx, hHm, higx]
          simpa using hm5
        rw [hux, Bool.or_true]
    · rw [if_neg hhead] at hp1 hp2
      injection hp1 with e1
      injection hp2 with e2
      intro x hx
      rw [← e1]
      rw [← e2] at hx
      exact hx
  have hsub : ∀ q v, Dict.get? (listDir env st.worktree p2) q = some v →
      Dict.get? (listDir env st.worktree p1) q = some v := by
    intro q v hq
    rcases listDir_get?_some hq with ⟨c, hwq, hv⟩
    have hmemq : q ∈ findMatchingFiles env st.worktree p2 := listDir_mem hq
    rcases (mem_findMatchingFiles_iff env st.worktree p2 q).mp hmemq with
      ⟨hcont, pat, hpat, hm⟩
    have hig : isIgnore env q = false := matchesInput_not_ignore hm
    have hmemq1 : q ∈ findMatchingFiles env st.worktree p1 :=
      (mem_findMatchingFiles_iff env st.worktree p1 q).mpr
        ⟨hcont, pat, hP1 pat hpat, hm⟩
    rw [hv]
    exact listDir_complete hmemq1 hwq hig
  have hempty : dropLoop F1 (listDir env st.worktree p2) = [] := by
    apply dropLoop_empties F1 _ (listDir_nodup env st.worktree p2)
    intro kv hkv
    have hget : Dict.get? (listDir env st.worktree p2) kv.1 = some kv.2 :=
      Dict.get?_of_mem_nodup (listDir_nodup env st.worktree p2)
        (show (kv.1, kv.2) ∈ _ from hkv)
    have h0 := hsub kv.1 kv.2 hget
    have hM := hmerge kv.1 kv.2 h0
    rcases listDir_get?_some hget with ⟨c, hwq, _⟩
    have hig : isIgnore env kv.1 = false := by
      have hmm := listDir_mem hget
      rcases (mem_findMatchingFiles_iff env st.worktree p2 kv.1).mp hmm with
        ⟨_, pat, _, hmz⟩
      exact matchesInput_not_ignore hmz
    have hF : Dict.get? F1 kv.1 = some kv.2 := by
      rw [hframe kv.1 c hwq hig]
      exact hM
    exact Dict.mem_of_get? hF
  rw [hempty, Dict.update_nil]
  apply removedLoop_fst_id
  intro f hf htgt
  rcases removedLoop_establishes patterns f (hremNB f hf) htgt
    (findRemovedFiles env st)
    (Dict.update st.index (dropLoop st.index (listDir env st.worktree p1)),
     dropLoop st.index (listDir env st.worktree p1)) hf hremNB with ⟨hb, hpos⟩
  rw [hF1] at hb hpos
  exact ⟨hpos, hb⟩

/-- C6: re-staging is idempotent on the staging index.  For every
repository state whose staging index has no duplicate keys, whose
working-tree paths all start with `./` (as every walked path does), and
whose history entries carry no `!` tombstone marker, running
`stage(patterns)` twice in a row yields exactly the index produced by the
first run — in particular staging an already-staged, unchanged file again
is a no-op: the fresh fingerprint equals the indexed one, the merge-drop
step deletes the entry from the fresh snapshot, and the merged index is
unchanged. -/
theorem stage_idempotent (env : Env) (st : RepoState) (patterns : List String)
    (st1 st2 : RepoState) (r1 r2 : Dict (Option String))
    (hidx : (Dict.keys st.index).Nodup)
    (hwt : ∀ kv ∈ st.worktree, strStartsWith kv.1 "./" = true)
    (hhist : ∀ g ∈ st.history, strStartsWith g "!" = false)
    (h1 : stage env st patterns = .ok (st1, r1))
    (h2 : stage env st1 patterns = .ok (st2, r2)) :
    st2.index = st1.index := by
  rcases stage_ok_pieces h1 with ⟨p1, b1, hp1, hs1⟩
  subst hs1
  rcases stage_ok_pieces h2 with ⟨p2, b2, hp2, hs2⟩
  rw [hs2]
  simp only [] at hp2 ⊢
  rw [findRemovedFiles_fields]
  exact stage_second_fixpoint env st patterns p1 p2 _ b1 hidx hwt hhist hp1 rfl hp2

/-- Witness for C6: staging the two-file fixture tree twice from a fresh
repository; the second `stage` leaves the index of the first untouched. -/
theorem stage_idempotent_witness :
    ((Dict.keys (initRepo exTree).index).Nodup ∧
     (∀ kv ∈ (initRepo exTree).worktree, strStartsWith kv.1 "./" = true) ∧
     (∀ g ∈ (initRepo exTree).history, strStartsWith g "!" = false)) ∧
    ((exOk (stage exEnv exS1 ["."])).1).index = exS1.index :=
  ⟨⟨by decide, by decide, by decide⟩,
   stage_idempotent exEnv (initRepo exTree) ["."] exS1
     (exOk (stage exEnv exS1 ["."])).1
     exS1.index (exOk (stage exEnv exS1 ["."])).2
     (by decide) (by decide) (by decide)
     (by rfl) (by rfl)⟩

end Epoch
